import Mathlib

set_option maxHeartbeats 1000000

/-! Verification of the AI-response normalization helpers of the Toursim backend.

The embedded functions are `cleanHtmlResponse` and `cleanAndParseJSON` from
`backend/routes/places.js`, `cleanAIResponse` and `cleanAndParseJSON` from
`backend/routes/map.js`, and `cleanGeminiResponse` from
`backend/routes/planner.js`, together with models of the JavaScript built-ins
they invoke: `String.prototype.trim`, `String.prototype.replace` with each of
the concrete regular expressions appearing in the source, `String.prototype.match`
with `/\{[\s\S]*\}/`, and `JSON.parse`.  Strings are represented as `List Char`
internally, wrapped into `String` at the route-function boundary. -/

/-- Whitespace class of JavaScript regular expressions (`\s`) and of
`String.prototype.trim`: WhiteSpace together with LineTerminator code points. -/
def jsWs (c : Char) : Bool :=
  c = ' ' || c = '\t' || c = '\n' || c.toNat = 0x0B || c.toNat = 0x0C || c = '\r' ||
  c.toNat = 0xA0 || c.toNat = 0x1680 || (0x2000 ≤ c.toNat && c.toNat ≤ 0x200A) ||
  c.toNat = 0x2028 || c.toNat = 0x2029 || c.toNat = 0x202F || c.toNat = 0x205F ||
  c.toNat = 0x3000 || c.toNat = 0xFEFF

/-- Drop leading JavaScript whitespace (the leading half of `trim`). -/
def jsTrimLeft (cs : List Char) : List Char := cs.dropWhile jsWs

/-- Model of `String.prototype.trim` on character lists. -/
def jsTrimL (cs : List Char) : List Char :=
  ((cs.dropWhile jsWs).reverse.dropWhile jsWs).reverse

/-- Model of `String.prototype.trim`. -/
def jsTrimStr (s : String) : String := ⟨jsTrimL s.data⟩

/-- Character class `[\d,\s]` of the citation regex in `places.js`
(`/\[[\d,\s]+\]/g`): ASCII digits, the comma, and JS whitespace. -/
def citClass (c : Char) : Bool := c.isDigit || c = ',' || jsWs c

/-- One-pass global replacement of a bracketed class run `/\[p+\]/g` by the
empty string, as a left-to-right scan; `p` is the character class between the
brackets.  State `some buf` records a pending `[` whose following class
characters read so far are `buf`; since no class character is `[`, no match can
start inside a failed candidate, so re-emitting `[` and `buf` verbatim and
resuming at the character that broke the candidate agrees with the regex
engine's scan.  The two citation regexes of the source differ only in `p`. -/
def stripBrGo (p : Char → Bool) : Option (List Char) → List Char → List Char
  | none, [] => []
  | some buf, [] => '[' :: buf
  | none, c :: rest =>
    if c = '[' then stripBrGo p (some []) rest else c :: stripBrGo p none rest
  | some buf, c :: rest =>
    if p c then stripBrGo p (some (buf ++ [c])) rest
    else if c = ']' ∧ buf ≠ [] then stripBrGo p none rest
    else '[' :: buf ++
      (if c = '[' then stripBrGo p (some []) rest else c :: stripBrGo p none rest)

/-- Model of `text.replace(/\[[\d,\s]+\]/g, '')` from `places.js`. -/
def stripCitM (cs : List Char) : List Char := stripBrGo citClass none cs

/-- Model of `text.replace(/\[\d+\]/g, '')` from `map.js`. -/
def stripCitS (cs : List Char) : List Char := stripBrGo Char.isDigit none cs

/-- The original characters a pending bracket state stands for. -/
def citPend : Option (List Char) → List Char
  | none => []
  | some buf => '[' :: buf

/-- One-pass global replacement of `/,\s*([\]}])/g` by `'$1'`: the
trailing-comma repair of `places.js`.  State `some buf` records a pending comma
whose following whitespace run is `buf`. -/
def fixTCGo : Option (List Char) → List Char → List Char
  | none, [] => []
  | some buf, [] => ',' :: buf
  | none, c :: rest =>
    if c = ',' then fixTCGo (some []) rest else c :: fixTCGo none rest
  | some buf, c :: rest =>
    if c = '}' ∨ c = ']' then c :: fixTCGo none rest
    else if jsWs c then fixTCGo (some (buf ++ [c])) rest
    else ',' :: buf ++
      (if c = ',' then fixTCGo (some []) rest else c :: fixTCGo none rest)

/-- Model of `potentialJson.replace(/,\s*([\]}])/g, '$1')` from `places.js`. -/
def fixTC (cs : List Char) : List Char := fixTCGo none cs

/-- Whether `/,\s*([\]}])/` matches at the head of the text: a comma, a run of
whitespace, then a closing brace or bracket. -/
def matchAtTC : List Char → Bool
  | [] => false
  | c :: rest =>
    c = ',' && (((rest.dropWhile jsWs).head? == some '}')
      || ((rest.dropWhile jsWs).head? == some ']'))

/-- Whether the trailing-comma pattern `/,\s*([\]}])/` matches anywhere. -/
def hasTC (cs : List Char) : Bool :=
  (List.range cs.length).any fun i => matchAtTC (cs.drop i)

/-- The original characters a pending trailing-comma state stands for. -/
def tcPend : Option (List Char) → List Char
  | none => []
  | some buf => ',' :: buf

/-- The backtick character, written by code point. -/
def backtick : Char := Char.ofNat 96

/-- Scanner state for the global replacement of `/```json|```/g`: `t1`/`t2`
count pending backticks of an incomplete fence, `j0`–`j3` record how much of a
tagged fence's `json` suffix has been read after a committed triple backtick. -/
inductive FState where
  | t0 | t1 | t2 | j0 | j1 | j2 | j3
deriving DecidableEq

/-- Characters to flush when a pending fence candidate is interrupted. -/
def fenceEmit : FState → List Char
  | .t0 => [] | .t1 => [backtick] | .t2 => [backtick, backtick]
  | .j0 => [] | .j1 => ['j'] | .j2 => ['j', 's'] | .j3 => ['j', 's', 'o']

/-- One-pass global replacement of `/```json|```/g` by the empty string, the
fence removal of `map.js`: the alternation prefers the tagged opening fence,
and a bare triple backtick is removed even when the tag does not follow.  A
pending run of fewer than three backticks, or a partial `json` tag, cannot
contain the start of another match, so flushing it verbatim agrees with the
regex engine's character-by-character scan. -/
def stripFencesGo : FState → List Char → List Char
  | st, [] => fenceEmit st
  | .t0, c :: rest =>
    if c = backtick then stripFencesGo .t1 rest else c :: stripFencesGo .t0 rest
  | .t1, c :: rest =>
    if c = backtick then stripFencesGo .t2 rest
    else backtick :: c :: stripFencesGo .t0 rest
  | .t2, c :: rest =>
    if c = backtick then stripFencesGo .j0 rest
    else backtick :: backtick :: c :: stripFencesGo .t0 rest
  | .j0, c :: rest =>
    if c = 'j' then stripFencesGo .j1 rest
    else if c = backtick then stripFencesGo .t1 rest
    else c :: stripFencesGo .t0 rest
  | .j1, c :: rest =>
    if c = 's' then stripFencesGo .j2 rest
    else if c = backtick then 'j' :: stripFencesGo .t1 rest
    else 'j' :: c :: stripFencesGo .t0 rest
  | .j2, c :: rest =>
    if c = 'o' then stripFencesGo .j3 rest
    else if c = backtick then 'j' :: 's' :: stripFencesGo .t1 rest
    else 'j' :: 's' :: c :: stripFencesGo .t0 rest
  | .j3, c :: rest =>
    if c = 'n' then stripFencesGo .t0 rest
    else if c = backtick then 'j' :: 's' :: 'o' :: stripFencesGo .t1 rest
    else 'j' :: 's' :: 'o' :: c :: stripFencesGo .t0 rest

/-- Model of `text.replace(/```json|```/g, '')` from `map.js`. -/
def stripFences (cs : List Char) : List Char := stripFencesGo .t0 cs

/-- Model of `text.replace(/^```(html)?\s*/i, '')` from `places.js` and
`planner.js`: an anchored leading fence, optionally tagged `html` in any case,
followed by a greedy whitespace run. -/
def stripLeadingFence (cs : List Char) : List Char :=
  match cs with
  | c1 :: c2 :: c3 :: rest =>
    if c1 = backtick ∧ c2 = backtick ∧ c3 = backtick then
      match rest with
      | h :: t :: m :: l :: rest2 =>
        if h.toLower = 'h' ∧ t.toLower = 't' ∧ m.toLower = 'm' ∧ l.toLower = 'l' then
          jsTrimLeft rest2
        else jsTrimLeft rest
      | _ => jsTrimLeft rest
    else cs
  | _ => cs

/-- Model of `.replace(/\s*```$/, '')` from `places.js` and `planner.js`: the
single leftmost match of an end-anchored closing fence removes the trailing
backticks together with the maximal whitespace run directly before them. -/
def stripTrailingFence (cs : List Char) : List Char :=
  match cs.reverse with
  | c1 :: c2 :: c3 :: rest =>
    if c1 = backtick ∧ c2 = backtick ∧ c3 = backtick then (rest.dropWhile jsWs).reverse
    else cs
  | _ => cs

/-- Model of `cleanedText.match(/\{[\s\S]*\}/)`: the greedy pattern matches
exactly the inclusive span from the first `{` to the last `}` when the last `}`
comes strictly after the first `{`, and fails otherwise. -/
def jsonObjectMatch (cs : List Char) : Option (List Char) :=
  match cs.dropWhile (fun c => c != '{') with
  | [] => none
  | b :: rest =>
    let r := rest.reverse.dropWhile (fun c => c != '}')
    if r.isEmpty then none else some (b :: r.reverse)

/-- Whether the text has a `{` with some `}` strictly after it, i.e. whether
`/\{[\s\S]*\}/` finds a match. -/
def hasBoundedBraces (cs : List Char) : Bool :=
  match cs.dropWhile (fun c => c != '{') with
  | [] => false
  | _ :: rest => rest.contains '}'

/-- Whether `/\[p+\]/` matches at the head of the text, for a class `p`. -/
def matchAtBr (p : Char → Bool) (cs : List Char) : Bool :=
  match cs with
  | '[' :: rest =>
    let run := rest.takeWhile p
    !run.isEmpty && ((rest.drop run.length).head? == some ']')
  | _ => false

/-- Whether `/\[[\d,\s]+\]/` matches at the head of the text. -/
def matchAtCitM (cs : List Char) : Bool := matchAtBr citClass cs

/-- Whether `/\[\d+\]/` matches at the head of the text. -/
def matchAtCitS (cs : List Char) : Bool := matchAtBr Char.isDigit cs

/-- Whether a triple backtick starts the text. -/
def matchAtFence (cs : List Char) : Bool :=
  match cs with
  | c1 :: c2 :: c3 :: _ => c1 = backtick && c2 = backtick && c3 = backtick
  | _ => false

/-- Whether `/\[[\d,\s]+\]/` matches anywhere in the text. -/
def hasCitM (cs : List Char) : Bool :=
  (List.range cs.length).any fun i => matchAtCitM (cs.drop i)

/-- Whether `/\[\d+\]/` matches anywhere in the text. -/
def hasCitS (cs : List Char) : Bool :=
  (List.range cs.length).any fun i => matchAtCitS (cs.drop i)

/-- Whether a fence delimiter (three consecutive backticks) occurs anywhere. -/
def hasFence (cs : List Char) : Bool :=
  (List.range cs.length).any fun i => matchAtFence (cs.drop i)

/-- Modelled from the spec: continuation of a citation marker after a digit
group, "optionally followed by comma-separated additional digit groups,
enclosed in square brackets"; whitespace may follow a comma, as in the spec's
example `[2, 7]`. -/
def matchAtSpecGroups : Nat → List Char → Bool
  | 0, _ => false
  | _ + 1, ']' :: _ => true
  | fuel + 1, ',' :: rest =>
    let r := rest.dropWhile jsWs
    let d := r.takeWhile Char.isDigit
    !d.isEmpty && matchAtSpecGroups fuel (r.drop d.length)
  | _ + 1, _ => false

/-- Modelled from the spec: whether a citation marker in the spec's sense (one
or more digits, optionally followed by comma-separated additional digit
groups, enclosed in square brackets) starts at the head of the text. -/
def matchAtSpec (cs : List Char) : Bool :=
  match cs with
  | '[' :: rest =>
    let d := rest.takeWhile Char.isDigit
    !d.isEmpty && matchAtSpecGroups rest.length (rest.drop d.length)
  | _ => false

/-- Modelled from the spec: whether a citation marker in the spec's sense
occurs anywhere in the text. -/
def specCitationMarkerPresent (cs : List Char) : Bool :=
  (List.range cs.length).any fun i => matchAtSpec (cs.drop i)

/-- Whether the text begins with the four characters `json`. -/
def jsonPrefixAt (cs : List Char) : Bool :=
  match cs with
  | c1 :: c2 :: c3 :: c4 :: _ => c1 = 'j' && c2 = 's' && c3 = 'o' && c4 = 'n'
  | _ => false

/-! Model of `JSON.parse`.  JavaScript parses numbers to doubles; this model
keeps the syntactic content of a number literal (sign, scaled mantissa, number
of fraction digits, exponent), which separates exactly the literals the claims
compare.  Lone-surrogate `\u` escapes, which Lean's unicode strings cannot
carry, are treated as parse errors. -/

/-- Syntactic content of a JSON number literal. -/
structure JNum where
  neg : Bool
  mant : Nat
  fracLen : Nat
  exp : Int
deriving DecidableEq, Repr

/-- JSON values as produced by `JSON.parse`. -/
inductive Json where
  | null
  | bool (b : Bool)
  | num (n : JNum)
  | str (s : String)
  | arr (elems : List Json)
  | obj (fields : List (String × Json))

/-- Insignificant whitespace of the JSON grammar (unlike the regex class
`\s`, only space, tab, line feed and carriage return). -/
def jsonWs (c : Char) : Bool := c = ' ' || c = '\t' || c = '\n' || c = '\r'

/-- Skip insignificant JSON whitespace. -/
def skipJsonWs (cs : List Char) : List Char := cs.dropWhile jsonWs

/-- Value of a hexadecimal digit. -/
def hexVal (c : Char) : Option Nat :=
  if '0' ≤ c ∧ c ≤ '9' then some (c.toNat - '0'.toNat)
  else if 'a' ≤ c ∧ c ≤ 'f' then some (c.toNat - 'a'.toNat + 10)
  else if 'A' ≤ c ∧ c ≤ 'F' then some (c.toNat - 'A'.toNat + 10)
  else none

/-- Body of a JSON string literal, after the opening quote: returns the decoded
characters and the input after the closing quote.  Raw control characters are
rejected, escape sequences are decoded, and a `\u` escape must denote a
unicode scalar value. -/
def parseStringBody : List Char → Option (List Char × List Char)
  | [] => none
  | c :: rest =>
    if c = '"' then some ([], rest)
    else if c = '\\' then
      match rest with
      | [] => none
      | e :: rest2 =>
        if e = '"' ∨ e = '\\' ∨ e = '/' then
          (parseStringBody rest2).map fun p => (e :: p.1, p.2)
        else if e = 'b' then
          (parseStringBody rest2).map fun p => (Char.ofNat 0x08 :: p.1, p.2)
        else if e = 'f' then
          (parseStringBody rest2).map fun p => (Char.ofNat 0x0C :: p.1, p.2)
        else if e = 'n' then
          (parseStringBody rest2).map fun p => ('\n' :: p.1, p.2)
        else if e = 'r' then
          (parseStringBody rest2).map fun p => ('\r' :: p.1, p.2)
        else if e = 't' then
          (parseStringBody rest2).map fun p => ('\t' :: p.1, p.2)
        else if e = 'u' then
          match rest2 with
          | h1 :: h2 :: h3 :: h4 :: rest3 =>
            match hexVal h1, hexVal h2, hexVal h3, hexVal h4 with
            | some a, some b, some c', some d =>
              let n := ((a * 16 + b) * 16 + c') * 16 + d
              if n.isValidChar then
                (parseStringBody rest3).map fun p => (Char.ofNat n :: p.1, p.2)
              else none
            | _, _, _, _ => none
          | _ => none
        else none
    else if c.toNat < 0x20 then none
    else (parseStringBody rest).map fun p => (c :: p.1, p.2)

/-- Numeric value of a digit run, most significant first. -/
def digitsVal (cs : List Char) : Nat :=
  cs.foldl (fun acc c => acc * 10 + (c.toNat - '0'.toNat)) 0

/-- Integer part of a JSON number literal: `0`, or a digit run not starting
with `0`. -/
def parseIntPart (cs : List Char) : Option (List Char × List Char) :=
  match cs with
  | c :: rest =>
    if c = '0' then some (['0'], rest)
    else if c.isDigit then some (cs.takeWhile Char.isDigit, cs.dropWhile Char.isDigit)
    else none
  | [] => none

/-- Optional exponent of a JSON number literal, finishing the number. -/
def parseExpPart (neg : Bool) (mant fracLen : Nat) (cs : List Char) :
    Option (JNum × List Char) :=
  if cs.head? == some 'e' || cs.head? == some 'E' then
    let sgn : Int × List Char :=
      if cs.tail.head? == some '+' then ((1 : Int), cs.tail.tail)
      else if cs.tail.head? == some '-' then ((-1 : Int), cs.tail.tail)
      else ((1 : Int), cs.tail)
    let eDigits := sgn.2.takeWhile Char.isDigit
    if eDigits.isEmpty then none
    else some (⟨neg, mant, fracLen, sgn.1 * digitsVal eDigits⟩,
      sgn.2.dropWhile Char.isDigit)
  else some (⟨neg, mant, fracLen, 0⟩, cs)

/-- A JSON number literal at the head of the input: `-?int frac? exp?` with
`int` either `0` or a nonzero-led digit run. -/
def parseNumber (cs : List Char) : Option (JNum × List Char) :=
  let neg : Bool := cs.head? == some '-'
  let cs1 := if neg then cs.tail else cs
  match parseIntPart cs1 with
  | none => none
  | some (intDigits, cs2) =>
    if cs2.head? == some '.' then
      let fracDigits := cs2.tail.takeWhile Char.isDigit
      if fracDigits.isEmpty then none
      else
        parseExpPart neg (digitsVal intDigits * 10 ^ fracDigits.length + digitsVal fracDigits)
          fracDigits.length (cs2.tail.dropWhile Char.isDigit)
    else parseExpPart neg (digitsVal intDigits) 0 cs2

mutual

/-- A JSON value, with leading whitespace, at the head of the input. -/
def parseValueF : Nat → List Char → Option (Json × List Char)
  | 0, _ => none
  | fuel + 1, cs =>
    match skipJsonWs cs with
    | [] => none
    | c :: rest =>
      if c = '{' then
        if (skipJsonWs rest).head? == some '}' then
          some (.obj [], (skipJsonWs rest).tail)
        else (parseMembersF fuel (skipJsonWs rest)).map fun p => (.obj p.1, p.2)
      else if c = '[' then
        if (skipJsonWs rest).head? == some ']' then
          some (.arr [], (skipJsonWs rest).tail)
        else (parseElemsF fuel (skipJsonWs rest)).map fun p => (.arr p.1, p.2)
      else if c = '"' then
        (parseStringBody rest).map fun p => (.str ⟨p.1⟩, p.2)
      else if c = 't' then
        match rest with
        | c1 :: c2 :: c3 :: rest2 =>
          if c1 = 'r' ∧ c2 = 'u' ∧ c3 = 'e' then some (.bool true, rest2) else none
        | _ => none
      else if c = 'f' then
        match rest with
        | c1 :: c2 :: c3 :: c4 :: rest2 =>
          if c1 = 'a' ∧ c2 = 'l' ∧ c3 = 's' ∧ c4 = 'e' then some (.bool false, rest2)
          else none
        | _ => none
      else if c = 'n' then
        match rest with
        | c1 :: c2 :: c3 :: rest2 =>
          if c1 = 'u' ∧ c2 = 'l' ∧ c3 = 'l' then some (.null, rest2) else none
        | _ => none
      else
        (parseNumber (c :: rest)).map fun p => (.num p.1, p.2)

/-- A nonempty member list of a JSON object, expecting a key at the head,
up to and including the closing brace. -/
def parseMembersF : Nat → List Char → Option (List (String × Json) × List Char)
  | 0, _ => none
  | fuel + 1, cs =>
    match cs with
    | [] => none
    | c :: rest =>
      if c = '"' then
        match parseStringBody rest with
        | none => none
        | some (key, rest2) =>
          match skipJsonWs rest2 with
          | [] => none
          | c2 :: rest3 =>
            if c2 = ':' then
              match parseValueF fuel rest3 with
              | none => none
              | some (v, rest4) =>
                match skipJsonWs rest4 with
                | [] => none
                | c3 :: rest5 =>
                  if c3 = ',' then
                    (parseMembersF fuel (skipJsonWs rest5)).map fun p =>
                      ((⟨key⟩, v) :: p.1, p.2)
                  else if c3 = '}' then some ([(⟨key⟩, v)], rest5)
                  else none
            else none
      else none

/-- A nonempty element list of a JSON array, up to and including the closing
bracket. -/
def parseElemsF : Nat → List Char → Option (List Json × List Char)
  | 0, _ => none
  | fuel + 1, cs =>
    match parseValueF fuel cs with
    | none => none
    | some (v, rest) =>
      match skipJsonWs rest with
      | [] => none
      | c :: rest2 =>
        if c = ',' then (parseElemsF fuel rest2).map fun p => (v :: p.1, p.2)
        else if c = ']' then some ([v], rest2)
        else none

end

/-- Model of `JSON.parse` on character lists: a single value, possibly
surrounded by whitespace, and nothing else. -/
def jsonParseL (cs : List Char) : Except String Json :=
  match parseValueF (cs.length + 1) cs with
  | some (j, rest) =>
    if (skipJsonWs rest).isEmpty then .ok j
    else .error "Unexpected non-whitespace character after JSON data"
  | none => .error "Unexpected token in JSON"

/-! Modelled from the spec: the round-trip property quantifies over "any
mapping `m` serializable to a compact JSON string `j`".  The mapping is a flat
association list of primitive values and its compact serialization is that of
`JSON.stringify`: no insignificant whitespace, strings quoted with `"`, `\` and
control characters escaped, numbers in plain decimal. -/

/-- A primitive JSON value of the round-trip mapping. -/
inductive Prim where
  | str (s : String)
  | num (neg : Bool) (mant : Nat) (fracLen : Nat)
  | bool (b : Bool)
  | null

/-- Character of a decimal digit value. -/
def digitChar (n : Nat) : Char := Char.ofNat ('0'.toNat + n)

/-- Character of a hexadecimal digit value, lowercase. -/
def hexDigitChar (n : Nat) : Char :=
  if n < 10 then digitChar n else Char.ofNat ('a'.toNat + (n - 10))

/-- Decimal digit characters of a natural number, most significant first. -/
def natDigitsAux : Nat → Nat → List Char
  | 0, _ => []
  | fuel + 1, n =>
    if n < 10 then [digitChar n]
    else natDigitsAux fuel (n / 10) ++ [digitChar (n % 10)]

/-- Decimal digit characters of a natural number, most significant first. -/
def natDigits (n : Nat) : List Char := natDigitsAux (n + 1) n

/-- Escape of one character inside a `JSON.stringify`d string literal. -/
def escChar (c : Char) : List Char :=
  if c = '"' then ['\\', '"']
  else if c = '\\' then ['\\', '\\']
  else if c = '\n' then ['\\', 'n']
  else if c = '\r' then ['\\', 'r']
  else if c = '\t' then ['\\', 't']
  else if c.toNat = 0x08 then ['\\', 'b']
  else if c.toNat = 0x0C then ['\\', 'f']
  else if c.toNat < 0x20 then
    ['\\', 'u', '0', '0', hexDigitChar (c.toNat / 16), hexDigitChar (c.toNat % 16)]
  else [c]

/-- Escaped body of a string literal. -/
def escBody (cs : List Char) : List Char := cs.foldr (fun c acc => escChar c ++ acc) []

/-- A quoted, escaped string literal. -/
def quoteString (s : String) : List Char := '"' :: escBody s.data ++ ['"']

/-- Fraction digits padded to width `k` with leading zeros. -/
def padDigits (k r : Nat) : List Char :=
  List.replicate (k - (natDigits r).length) '0' ++ natDigits r

/-- Plain decimal rendering of a number with `fracLen` fraction digits. -/
def serializeNum (neg : Bool) (mant fracLen : Nat) : List Char :=
  (if neg then ['-'] else []) ++
  (if fracLen = 0 then natDigits mant
   else natDigits (mant / 10 ^ fracLen) ++ '.' :: padDigits fracLen (mant % 10 ^ fracLen))

/-- Compact serialization of one primitive value. -/
def serializePrim : Prim → List Char
  | .str s => quoteString s
  | .num neg mant fracLen => serializeNum neg mant fracLen
  | .bool true => ['t', 'r', 'u', 'e']
  | .bool false => ['f', 'a', 'l', 's', 'e']
  | .null => ['n', 'u', 'l', 'l']

/-- Compact serialization of the members of a mapping, comma separated. -/
def serializeMembers : List (String × Prim) → List Char
  | [] => []
  | [(k, v)] => quoteString k ++ ':' :: serializePrim v
  | (k, v) :: tl => quoteString k ++ ':' :: serializePrim v ++ ',' :: serializeMembers tl

/-- Compact serialization of a flat mapping, `JSON.stringify` style. -/
def serializeObj (m : List (String × Prim)) : List Char :=
  '{' :: serializeMembers m ++ ['}']

/-- The JSON value a parse of the serialization should reproduce. -/
def primToJson : Prim → Json
  | .str s => .str s
  | .num neg mant fracLen => .num ⟨neg, mant, fracLen, 0⟩
  | .bool b => .bool b
  | .null => .null

/-- The mapping as a parsed JSON object. -/
def primObjToJson (m : List (String × Prim)) : Json :=
  .obj (m.map fun p => (p.1, primToJson p.2))

namespace Places

/-- Embedding of `cleanHtmlResponse` from `backend/routes/places.js`: strip an
anchored leading fence (optionally tagged `html`), an anchored trailing fence,
then all `/\[[\d,\s]+\]/g` citation groups, then trim. -/
def cleanHtmlResponse (text : String) : String :=
  ⟨jsTrimL (stripCitM (stripTrailingFence (stripLeadingFence text.data)))⟩

/-- Embedding of `cleanAndParseJSON` from `backend/routes/places.js`: null for
empty input, strip citations and trim, take the `/\{[\s\S]*\}/` match, repair
trailing commas, parse, and catch any parse error as null. -/
def cleanAndParseJSON (text : String) : Option Json :=
  if text.data.isEmpty then none
  else
    match jsonObjectMatch (jsTrimL (stripCitM text.data)) with
    | none => none
    | some cand =>
      match jsonParseL (fixTC cand) with
      | .ok j => some j
      | .error _ => none

/-- The `if (!text) return null` guard also covers a null or undefined
argument; `none` stands for those. -/
def cleanAndParseJSONOpt : Option String → Option Json
  | none => none
  | some t => cleanAndParseJSON t

end Places

namespace MapRoute

/-- Embedding of `cleanAIResponse` from `backend/routes/map.js`: remove all
`/```json|```/g` fence tokens, then all `/\[\d+\]/g` single-number citation
markers, then trim. -/
def cleanAIResponse (text : String) : String :=
  ⟨jsTrimL (stripCitS (stripFences text.data))⟩

/-- Embedding of `cleanAndParseJSON` from `backend/routes/map.js`: unlike the
`places.js` version it throws when no JSON object is found and lets
`JSON.parse` errors propagate. -/
def cleanAndParseJSON (text : String) : Except String Json :=
  match jsonObjectMatch (cleanAIResponse text).data with
  | none => .error "No JSON object found in AI response."
  | some cand => jsonParseL cand

end MapRoute

namespace Planner

/-- Embedding of `cleanGeminiResponse` from `backend/routes/planner.js`:
anchored leading and trailing fence removal and a trim, nothing else. -/
def cleanGeminiResponse (text : String) : String :=
  ⟨jsTrimL (stripTrailingFence (stripLeadingFence text.data))⟩

end Planner

/-! List scanning facts used throughout. -/

theorem dropWhile_append_all {α : Type} {p : α → Bool} (a b : List α)
    (h : ∀ c ∈ a, p c = true) : (a ++ b).dropWhile p = b.dropWhile p := by
  induction a with
  | nil => rfl
  | cons c t ih =>
    simp only [List.cons_append, List.dropWhile_cons, h c (by simp), if_true]
    exact ih fun d hd => h d (by simp [hd])

theorem takeWhile_append_all {α : Type} {p : α → Bool} (a b : List α)
    (h : ∀ c ∈ a, p c = true) : (a ++ b).takeWhile p = a ++ b.takeWhile p := by
  induction a with
  | nil => rfl
  | cons c t ih =>
    simp only [List.cons_append, List.takeWhile_cons, h c (by simp), if_true]
    simpa using ih fun d hd => h d (by simp [hd])

theorem dropWhile_head_false {α : Type} {p : α → Bool} (l : List α)
    (h : ∀ c, l.head? = some c → p c = false) : l.dropWhile p = l := by
  cases l with
  | nil => rfl
  | cons c t => simp [List.dropWhile_cons, h c rfl]

theorem takeWhile_head_false {α : Type} {p : α → Bool} (l : List α)
    (h : ∀ c, l.head? = some c → p c = false) : l.takeWhile p = [] := by
  cases l with
  | nil => rfl
  | cons c t => simp [List.takeWhile_cons, h c rfl]

theorem head?_dropWhile_false {α : Type} {p : α → Bool} (l : List α) (c : α)
    (h : (l.dropWhile p).head? = some c) : p c = false := by
  induction l with
  | nil => simp at h
  | cons d t ih =>
    rw [List.dropWhile_cons] at h
    by_cases hd : p d = true
    · exact ih (by rwa [if_pos hd] at h)
    · rw [if_neg hd] at h
      simp only [List.head?_cons, Option.some.injEq] at h
      subst h
      simpa using hd

theorem mem_of_mem_dropWhile {α : Type} {p : α → Bool} {c : α} {l : List α}
    (h : c ∈ l.dropWhile p) : c ∈ l := by
  induction l with
  | nil => simp at h
  | cons d t ih =>
    rw [List.dropWhile_cons] at h
    by_cases hd : p d = true
    · rw [if_pos hd] at h
      exact List.mem_cons_of_mem d (ih h)
    · rw [if_neg hd] at h
      exact h

theorem mem_of_mem_jsTrimL {c : Char} {l : List Char} (h : c ∈ jsTrimL l) : c ∈ l := by
  unfold jsTrimL at h
  rw [List.mem_reverse] at h
  have h2 := mem_of_mem_dropWhile h
  rw [List.mem_reverse] at h2
  exact mem_of_mem_dropWhile h2

theorem jsTrimL_eq_self (l : List Char)
    (h1 : ∀ c, l.head? = some c → jsWs c = false)
    (h2 : ∀ c, l.getLast? = some c → jsWs c = false) : jsTrimL l = l := by
  unfold jsTrimL
  rw [dropWhile_head_false l h1, dropWhile_head_false l.reverse
    (fun c hc => h2 c (by rwa [List.head?_reverse] at hc)), List.reverse_reverse]

theorem drop_append_len {α : Type} (a b : List α) (i : Nat) :
    (a ++ b).drop (a.length + i) = b.drop i := by
  induction a with
  | nil => simp
  | cons c t ih => simpa [Nat.succ_add] using ih

theorem stripBrGo_none_cons (p : Char → Bool) (c : Char) (rest : List Char) :
    stripBrGo p none (c :: rest) =
      if c = '[' then stripBrGo p (some []) rest else c :: stripBrGo p none rest := by
  simp [stripBrGo]

theorem stripBrGo_some_cons (p : Char → Bool) (buf : List Char) (c : Char) (rest : List Char) :
    stripBrGo p (some buf) (c :: rest) =
      if p c then stripBrGo p (some (buf ++ [c])) rest
      else if c = ']' ∧ buf ≠ [] then stripBrGo p none rest
      else '[' :: buf ++
        (if c = '[' then stripBrGo p (some []) rest else c :: stripBrGo p none rest) := by
  simp [stripBrGo]

/-- With an all-class nonempty run before `]`, the bracket pattern matches. -/
theorem matchAtBr_marker (p : Char → Bool) (buf rest : List Char)
    (hbuf : ∀ c ∈ buf, p c = true) (hne : buf ≠ []) (hr : p ']' = false) :
    matchAtBr p ('[' :: (buf ++ ']' :: rest)) = true := by
  unfold matchAtBr
  have htw : (buf ++ ']' :: rest).takeWhile p = buf := by
    rw [takeWhile_append_all buf (']' :: rest) hbuf,
      takeWhile_head_false (']' :: rest) (fun d hd => by
        simp only [List.head?_cons, Option.some.injEq] at hd
        subst hd
        exact hr)]
    simp
  simp only [htw]
  have hdrop : (buf ++ ']' :: rest).drop buf.length = ']' :: rest := by
    simpa using drop_append_len buf (']' :: rest) 0
  simp [hdrop, hne]

/-- No match anywhere means the bracket scan reproduces its input, for any
pending state whose buffered characters lie in the class. -/
theorem stripBrGo_nomatch (p : Char → Bool) :
    ∀ (cs : List Char) (st : Option (List Char)),
    (∀ buf, st = some buf → ∀ c ∈ buf, p c = true) →
    (∀ i, matchAtBr p ((citPend st ++ cs).drop i) = false) →
    stripBrGo p st cs = citPend st ++ cs := by
  intro cs
  induction cs with
  | nil =>
    intro st _ _
    cases st <;> simp [stripBrGo, citPend]
  | cons c rest ih =>
    intro st hinv h
    cases st with
    | none =>
      rw [stripBrGo_none_cons]
      by_cases hc : c = '['
      · subst hc
        rw [if_pos rfl]
        have := ih (some []) (by intro buf hbuf; cases hbuf; intro x hx; simp at hx)
          (by intro i; simpa [citPend] using h i)
        simpa [citPend] using this
      · rw [if_neg hc]
        have := ih none (by intro buf hbuf; cases hbuf)
          (fun i => by simpa [citPend] using h (i + 1))
        simp only [citPend, List.nil_append] at this ⊢
        rw [this]
    | some buf =>
      have hbuf : ∀ x ∈ buf, p x = true := hinv buf rfl
      rw [stripBrGo_some_cons]
      by_cases hpc : p c = true
      · rw [if_pos hpc]
        have := ih (some (buf ++ [c])) (by
          intro b hb
          cases hb
          intro x hx
          rcases List.mem_append.mp hx with hx | hx
          · exact hbuf x hx
          · simp only [List.mem_singleton] at hx; subst hx; exact hpc)
          (by
            intro i
            have := h i
            simpa [citPend, List.append_assoc] using this)
        simp only [citPend] at this ⊢
        rw [this]
        simp [List.append_assoc]
      · rw [if_neg hpc]
        by_cases hcl : c = ']' ∧ buf ≠ []
        · exfalso
          have h0 := h 0
          simp only [citPend, List.drop_zero] at h0
          obtain ⟨hceq, hbne⟩ := hcl
          subst hceq
          rw [show ('[' :: buf) ++ (']' :: rest) = '[' :: (buf ++ ']' :: rest) by simp] at h0
          rw [matchAtBr_marker p buf rest hbuf hbne (by simpa using hpc)] at h0
          simp at h0
        · rw [if_neg hcl]
          by_cases hc : c = '['
          · subst hc
            rw [if_pos rfl]
            have := ih (some []) (by intro b hb; cases hb; intro x hx; simp at hx)
              (by
                intro i
                have := h (('[' :: buf).length + i)
                rwa [show citPend (some buf) ++ ('[' :: rest) = ('[' :: buf) ++ ('[' :: rest) from rfl,
                  drop_append_len] at this)
            simp only [citPend] at this
            rw [this]
            simp [citPend]
          · rw [if_neg hc]
            have := ih none (by intro b hb; cases hb)
              (by
                intro i
                have := h (('[' :: buf ++ [c]).length + i)
                rwa [show citPend (some buf) ++ (c :: rest) = ('[' :: buf ++ [c]) ++ rest by
                  simp [citPend], drop_append_len] at this)
            simp only [citPend, List.nil_append] at this
            rw [this]
            simp [citPend]

theorem jsTrimL_idem (l : List Char) : jsTrimL (jsTrimL l) = jsTrimL l := by
  unfold jsTrimL
  set A := l.dropWhile jsWs with hA
  set B := A.reverse.dropWhile jsWs with hB
  have hBrev : B.reverse.dropWhile jsWs = B.reverse := by
    apply dropWhile_head_false
    intro c hc
    have hpre : A = B.reverse ++ (A.reverse.takeWhile jsWs).reverse := by
      rw [hB]
      rw [← List.reverse_append, List.takeWhile_append_dropWhile, List.reverse_reverse]
    apply head?_dropWhile_false l c
    rw [← hA, hpre]
    cases hBr : B.reverse with
    | nil => rw [hBr] at hc; simp at hc
    | cons x xs =>
      rw [hBr] at hc
      simp only [List.head?_cons, Option.some.injEq] at hc
      subst hc
      simp
  rw [hBrev, List.reverse_reverse]
  have : B.dropWhile jsWs = B := by
    apply dropWhile_head_false
    intro c hc
    exact head?_dropWhile_false A.reverse c (hB ▸ hc)
  rw [this]

theorem matchAt_false_of_any_false (f : List Char → Bool) (cs : List Char)
    (h : ((List.range cs.length).any fun i => f (cs.drop i)) = false)
    (hnil : f [] = false) : ∀ i, f (cs.drop i) = false := by
  intro i
  by_cases hi : i < cs.length
  · by_contra hcon
    rw [Bool.not_eq_false] at hcon
    have : ((List.range cs.length).any fun i => f (cs.drop i)) = true :=
      List.any_eq_true.mpr ⟨i, List.mem_range.mpr hi, hcon⟩
    rw [h] at this
    simp at this
  · rw [List.drop_eq_nil_of_le (Nat.le_of_not_lt hi)]
    exact hnil

theorem stripCitM_id_of_no_match (cs : List Char) (h : hasCitM cs = false) :
    stripCitM cs = cs := by
  unfold stripCitM
  have := stripBrGo_nomatch citClass cs none (by intro buf hb; cases hb)
    (by
      intro i
      simp only [citPend, List.nil_append]
      exact matchAt_false_of_any_false _ cs h rfl i)
  simpa [citPend] using this

theorem stripCitS_id_of_no_match (cs : List Char) (h : hasCitS cs = false) :
    stripCitS cs = cs := by
  unfold stripCitS
  have := stripBrGo_nomatch Char.isDigit cs none (by intro buf hb; cases hb)
    (by
      intro i
      simp only [citPend, List.nil_append]
      exact matchAt_false_of_any_false _ cs h rfl i)
  simpa [citPend] using this

theorem stripBrGo_append (p : Char → Bool) (a b : List Char) (ha : '[' ∉ a) :
    stripBrGo p none (a ++ b) = a ++ stripBrGo p none b := by
  induction a with
  | nil => simp
  | cons c t ih =>
    rw [List.cons_append, stripBrGo_none_cons,
      if_neg (fun hc => ha (by rw [hc]; exact List.mem_cons_self _ _))]
    rw [ih fun hm => ha (List.mem_cons_of_mem c hm)]
    simp

theorem stripBrGo_marker_aux (p : Char → Bool) :
    ∀ (r buf b : List Char), (∀ c ∈ r, p c = true) → (buf ≠ [] ∨ r ≠ []) →
    p ']' = false →
    stripBrGo p (some buf) (r ++ ']' :: b) = stripBrGo p none b := by
  intro r
  induction r with
  | nil =>
    intro buf b _ hne hbr
    have hbuf : buf ≠ [] := hne.resolve_right (by simp)
    rw [List.nil_append, stripBrGo_some_cons, if_neg (by simp [hbr]),
      if_pos ⟨rfl, hbuf⟩]
  | cons c r' ih =>
    intro buf b hr hne hbr
    rw [List.cons_append, stripBrGo_some_cons, if_pos (hr c (List.mem_cons_self c r'))]
    exact ih (buf ++ [c]) b (fun d hd => hr d (List.mem_cons_of_mem c hd))
      (Or.inl (by simp)) hbr

theorem stripCitM_marker (a r b : List Char) (ha : '[' ∉ a)
    (hr : ∀ c ∈ r, citClass c = true) (hne : r ≠ []) :
    stripCitM (a ++ '[' :: (r ++ ']' :: b)) = a ++ stripCitM b := by
  unfold stripCitM
  rw [stripBrGo_append citClass a ('[' :: (r ++ ']' :: b)) ha,
    stripBrGo_none_cons, if_pos rfl,
    stripBrGo_marker_aux citClass r [] b hr (Or.inr hne) (by decide)]

theorem stripFencesGo_nomatch :
    ∀ (cs : List Char) (st : FState), (st = .t0 ∨ st = .t1 ∨ st = .t2) →
    (∀ i, matchAtFence ((fenceEmit st ++ cs).drop i) = false) →
    stripFencesGo st cs = fenceEmit st ++ cs := by
  intro cs
  induction cs with
  | nil =>
    intro st hst _
    rcases hst with h | h | h <;> subst h <;> simp [stripFencesGo]
  | cons c rest ih =>
    intro st hst h
    rcases hst with hst | hst | hst <;> subst hst
    · by_cases hc : c = backtick
      · subst hc
        rw [show stripFencesGo .t0 (backtick :: rest) = stripFencesGo .t1 rest by
          simp [stripFencesGo]]
        exact ih .t1 (Or.inr (Or.inl rfl)) (by simpa [fenceEmit] using h)
      · rw [show stripFencesGo .t0 (c :: rest) = c :: stripFencesGo .t0 rest by
          simp [stripFencesGo, hc]]
        have := ih .t0 (Or.inl rfl) (fun i => by simpa [fenceEmit] using h (i + 1))
        simp only [fenceEmit, List.nil_append] at this ⊢
        rw [this]
    · by_cases hc : c = backtick
      · subst hc
        rw [show stripFencesGo .t1 (backtick :: rest) = stripFencesGo .t2 rest by
          simp [stripFencesGo]]
        exact ih .t2 (Or.inr (Or.inr rfl)) (by simpa [fenceEmit] using h)
      · rw [show stripFencesGo .t1 (c :: rest) = backtick :: c :: stripFencesGo .t0 rest by
          simp [stripFencesGo, hc]]
        have := ih .t0 (Or.inl rfl) (fun i => by simpa [fenceEmit] using h (i + 1 + 1))
        simp only [fenceEmit, List.nil_append] at this
        rw [this]
        simp [fenceEmit]
    · by_cases hc : c = backtick
      · exfalso
        subst hc
        have h0 := h 0
        simp only [fenceEmit, List.drop_zero] at h0
        simp [matchAtFence] at h0
      · rw [show stripFencesGo .t2 (c :: rest) =
            backtick :: backtick :: c :: stripFencesGo .t0 rest by
          simp [stripFencesGo, hc]]
        have := ih .t0 (Or.inl rfl) (fun i => by simpa [fenceEmit] using h (i + 1 + 1 + 1))
        simp only [fenceEmit, List.nil_append] at this
        rw [this]
        simp [fenceEmit]

theorem stripFences_id_of_no_fence (cs : List Char) (h : hasFence cs = false) :
    stripFences cs = cs := by
  unfold stripFences
  have := stripFencesGo_nomatch cs .t0 (Or.inl rfl)
    (by
      intro i
      simp only [fenceEmit, List.nil_append]
      exact matchAt_false_of_any_false _ cs h rfl i)
  simpa [fenceEmit] using this

theorem stripLeadingFence_id (cs : List Char) (h : matchAtFence cs = false) :
    stripLeadingFence cs = cs := by
  unfold stripLeadingFence
  split
  · rename_i c1 c2 c3 rest
    rw [if_neg]
    intro ⟨h1, h2, h3⟩
    subst h1; subst h2; subst h3
    simp [matchAtFence] at h
  · rfl

theorem stripTrailingFence_id (cs : List Char)
    (h : ∀ i, matchAtFence (cs.drop i) = false) : stripTrailingFence cs = cs := by
  unfold stripTrailingFence
  split
  · rename_i c1 c2 c3 rest heq
    rw [if_neg]
    intro ⟨h1, h2, h3⟩
    subst h1; subst h2; subst h3
    have hcs : cs = rest.reverse ++ [backtick, backtick, backtick] := by
      have := congrArg List.reverse heq
      rw [List.reverse_reverse] at this
      rw [this]
      simp
    have hdrop : cs.drop rest.reverse.length = [backtick, backtick, backtick] := by
      rw [hcs]
      simpa using drop_append_len rest.reverse [backtick, backtick, backtick] 0
    have h2 := h rest.reverse.length
    rw [hdrop] at h2
    simp [matchAtFence] at h2
  · rfl

theorem matchAtBr_head (p : Char → Bool) (cs : List Char) (h : matchAtBr p cs = true) :
    ∃ rest, cs = '[' :: rest := by
  rw [matchAtBr.eq_def] at h
  split at h
  · rename_i rest
    exact ⟨rest, rfl⟩
  · simp at h

theorem matchAtFence_head (cs : List Char) (h : matchAtFence cs = true) :
    ∃ rest, cs = backtick :: rest := by
  rw [matchAtFence.eq_def] at h
  split at h
  · rename_i c1 c2 c3 rest
    simp only [Bool.and_eq_true, decide_eq_true_eq] at h
    exact ⟨c2 :: c3 :: rest, by rw [h.1.1]⟩
  · simp at h

theorem hasCitM_false_of_no_bracket (cs : List Char) (h : '[' ∉ cs) :
    hasCitM cs = false := by
  by_contra hcon
  rw [Bool.not_eq_false, hasCitM, List.any_eq_true] at hcon
  obtain ⟨i, _, hm⟩ := hcon
  obtain ⟨rest, hrest⟩ := matchAtBr_head citClass (cs.drop i) hm
  exact h (List.drop_subset i cs (by rw [hrest]; exact List.mem_cons_self _ _))

theorem hasCitS_false_of_no_bracket (cs : List Char) (h : '[' ∉ cs) :
    hasCitS cs = false := by
  by_contra hcon
  rw [Bool.not_eq_false, hasCitS, List.any_eq_true] at hcon
  obtain ⟨i, _, hm⟩ := hcon
  obtain ⟨rest, hrest⟩ := matchAtBr_head Char.isDigit (cs.drop i) hm
  exact h (List.drop_subset i cs (by rw [hrest]; exact List.mem_cons_self _ _))

theorem hasFence_false_of_no_backtick (cs : List Char) (h : backtick ∉ cs) :
    hasFence cs = false := by
  by_contra hcon
  rw [Bool.not_eq_false, hasFence, List.any_eq_true] at hcon
  obtain ⟨i, _, hm⟩ := hcon
  obtain ⟨rest, hrest⟩ := matchAtFence_head (cs.drop i) hm
  exact h (List.drop_subset i cs (by rw [hrest]; exact List.mem_cons_self _ _))

/-- With no fence and no code-level citation match, `cleanHtmlResponse`
reduces to a trim. -/
theorem cleanHtmlResponse_eq_trim (s : String) (hf : hasFence s.data = false)
    (hc : hasCitM s.data = false) : Places.cleanHtmlResponse s = jsTrimStr s := by
  unfold Places.cleanHtmlResponse jsTrimStr
  have hmf : ∀ i, matchAtFence (s.data.drop i) = false :=
    matchAt_false_of_any_false _ s.data hf rfl
  rw [stripLeadingFence_id s.data (by simpa using hmf 0), stripTrailingFence_id s.data hmf,
    stripCitM_id_of_no_match s.data hc]

theorem matchAtSpec_of_matchAtCitS (cs : List Char) (h : matchAtCitS cs = true) :
    matchAtSpec cs = true := by
  obtain ⟨rest, hrest⟩ := matchAtBr_head Char.isDigit cs h
  subst hrest
  rw [matchAtCitS, matchAtBr] at h
  rw [Bool.and_eq_true] at h
  obtain ⟨hne, hhead⟩ := h
  rw [beq_iff_eq] at hhead
  rw [matchAtSpec, Bool.and_eq_true]
  refine ⟨hne, ?_⟩
  cases hdrop : rest.drop (rest.takeWhile Char.isDigit).length with
  | nil => rw [hdrop] at hhead; simp at hhead
  | cons d tl =>
    rw [hdrop] at hhead
    simp only [List.head?_cons, Option.some.injEq] at hhead
    subst hhead
    have hlen : 0 < rest.length := by
      by_contra hcon
      have : rest = [] := List.eq_nil_of_length_eq_zero (Nat.eq_zero_of_not_pos hcon)
      subst this
      simp at hdrop
    obtain ⟨k, hk⟩ := Nat.exists_eq_add_of_lt hlen
    rw [hk]
    simp [matchAtSpecGroups]

theorem specCitationMarkerPresent_false_hasCitS (cs : List Char)
    (h : specCitationMarkerPresent cs = false) : hasCitS cs = false := by
  by_contra hcon
  rw [Bool.not_eq_false, hasCitS, List.any_eq_true] at hcon
  obtain ⟨i, hi, hm⟩ := hcon
  have : specCitationMarkerPresent cs = true := by
    rw [specCitationMarkerPresent, List.any_eq_true]
    exact ⟨i, hi, matchAtSpec_of_matchAtCitS _ hm⟩
  rw [h] at this
  exact Bool.noConfusion this

/-- With no fence and no spec-level citation marker, `cleanAIResponse` reduces
to a trim. -/
theorem cleanAIResponse_eq_trim (s : String) (hf : hasFence s.data = false)
    (hc : specCitationMarkerPresent s.data = false) :
    MapRoute.cleanAIResponse s = jsTrimStr s := by
  unfold MapRoute.cleanAIResponse jsTrimStr
  rw [stripFences_id_of_no_fence s.data hf,
    stripCitS_id_of_no_match s.data (specCitationMarkerPresent_false_hasCitS s.data hc)]

theorem jsonObjectMatch_none_of_unbounded (cs : List Char)
    (h : hasBoundedBraces cs = false) : jsonObjectMatch cs = none := by
  rw [hasBoundedBraces.eq_def] at h
  rw [jsonObjectMatch.eq_def]
  split
  · rfl
  · rename_i b rest hdw
    rw [hdw] at h
    have hcontains : rest.contains '}' = false := h
    have hall : ∀ x ∈ rest.reverse, (x != '}') = true := by
      intro x hx
      rw [List.mem_reverse] at hx
      simp only [bne_iff_ne, ne_eq]
      intro hcon
      subst hcon
      have hmem : rest.contains '}' = true := by
        simpa using List.elem_eq_true_of_mem hx
      exact Bool.noConfusion (hcontains ▸ hmem)
    have : rest.reverse.dropWhile (fun c => c != '}') = [] := by
      rw [List.dropWhile_eq_nil_iff]
      exact hall
    simp [this]

/-- The greedy object pattern on a wrapped payload picks exactly the span from
the first `{` to the last `}`. -/
theorem jsonObjectMatch_wrap (pre mid post : List Char) (hpre : '{' ∉ pre)
    (hpost : '}' ∉ post) :
    jsonObjectMatch (pre ++ '{' :: (mid ++ '}' :: post)) = some ('{' :: (mid ++ ['}'])) := by
  have hdw : (pre ++ '{' :: (mid ++ '}' :: post)).dropWhile (fun c => c != '{')
      = '{' :: (mid ++ '}' :: post) := by
    rw [dropWhile_append_all pre ('{' :: (mid ++ '}' :: post)) (fun c hc => by
      simp only [bne_iff_ne, ne_eq, decide_eq_true_eq]
      intro hcon
      exact hpre (hcon ▸ hc))]
    exact dropWhile_head_false _ (fun c hc => by
      simp only [List.head?_cons, Option.some.injEq] at hc
      subst hc
      simp)
  have hr : (mid ++ '}' :: post).reverse.dropWhile (fun c => c != '}')
      = '}' :: mid.reverse := by
    have hrev : (mid ++ '}' :: post).reverse = post.reverse ++ '}' :: mid.reverse := by
      simp
    rw [hrev, dropWhile_append_all post.reverse ('}' :: mid.reverse) (fun c hc => by
      simp only [bne_iff_ne, ne_eq, decide_eq_true_eq]
      intro hcon
      subst hcon
      exact hpost (List.mem_reverse.mp hc))]
    exact dropWhile_head_false _ (fun c hc => by
      simp only [List.head?_cons, Option.some.injEq] at hc
      subst hc
      simp)
  rw [jsonObjectMatch.eq_def]
  split
  · rename_i heq
    rw [hdw] at heq
    exact absurd heq (List.cons_ne_nil _ _)
  · rename_i b rest heq
    rw [hdw] at heq
    injection heq with h1 h2
    subst h1
    subst h2
    simp only [hr]
    simp

theorem jsonObjectMatch_some_shape (cs cand : List Char)
    (h : jsonObjectMatch cs = some cand) : ∃ t, cand = '{' :: t := by
  rw [jsonObjectMatch.eq_def] at h
  split at h
  · exact absurd h (by simp)
  · rename_i b rest hdw
    have hb : b = '{' := by
      have := head?_dropWhile_false (p := fun c => c != '{') cs b (by rw [hdw]; rfl)
      simpa using this
    subst hb
    dsimp only at h
    by_cases hre : ((rest.reverse.dropWhile (fun c => c != '}')).isEmpty : Bool)
    · rw [if_pos hre] at h
      exact absurd h (by simp)
    · rw [if_neg hre] at h
      injection h with h1
      exact ⟨(rest.reverse.dropWhile (fun c => c != '}')).reverse, h1.symm⟩

theorem fixTCGo_none_brace (rest : List Char) :
    fixTC ('{' :: rest) = '{' :: fixTCGo none rest := by
  simp [fixTC, fixTCGo]

theorem parseValueF_obj (fuel : Nat) (cs : List Char) (j : Json) (rest : List Char)
    (h : parseValueF fuel cs = some (j, rest))
    (hhead : (skipJsonWs cs).head? = some '{') : ∃ flds, j = Json.obj flds := by
  cases fuel with
  | zero => exact absurd h (by simp [parseValueF])
  | succ f =>
    rw [parseValueF.eq_def] at h
    dsimp only at h
    cases hws : skipJsonWs cs with
    | nil => rw [hws] at hhead; exact absurd hhead (by simp)
    | cons c rest' =>
      rw [hws] at h hhead
      simp only [List.head?_cons, Option.some.injEq] at hhead
      subst hhead
      dsimp only at h
      rw [if_pos rfl] at h
      split at h
      · injection h with h1
        injection h1 with h2 h3
        exact ⟨[], h2.symm⟩
      · cases hm : parseMembersF f (skipJsonWs rest') with
        | none => rw [hm] at h; exact absurd h (by simp)
        | some p =>
          rw [hm] at h
          simp only [Option.map_some'] at h
          injection h with h1
          injection h1 with h2 h3
          exact ⟨p.1, h2.symm⟩

theorem jsonParseL_obj (cs : List Char) (j : Json) (h : jsonParseL cs = .ok j)
    (hhead : (skipJsonWs cs).head? = some '{') : ∃ flds, j = Json.obj flds := by
  rw [jsonParseL.eq_def] at h
  cases hp : parseValueF (cs.length + 1) cs with
  | none => rw [hp] at h; exact absurd h (by simp)
  | some pr =>
    obtain ⟨j1, r1⟩ := pr
    rw [hp] at h
    dsimp only at h
    by_cases he : ((skipJsonWs r1).isEmpty : Bool)
    · rw [if_pos he] at h
      injection h with h1
      exact h1 ▸ parseValueF_obj (cs.length + 1) cs j1 r1 (by rw [hp]) hhead
    · rw [if_neg he] at h
      exact absurd h (by simp)

theorem digitsVal_general (l : List Char) (acc : Nat) :
    l.foldl (fun a c => a * 10 + (c.toNat - '0'.toNat)) acc
      = acc * 10 ^ l.length + digitsVal l := by
  induction l generalizing acc with
  | nil => simp [digitsVal]
  | cons c t ih =>
    rw [List.foldl_cons, ih]
    conv_rhs => rw [digitsVal, List.foldl_cons, ih]
    simp only [List.length_cons, pow_succ]
    ring

theorem digitsVal_append (a b : List Char) :
    digitsVal (a ++ b) = digitsVal a * 10 ^ b.length + digitsVal b := by
  rw [digitsVal, List.foldl_append]
  exact digitsVal_general b (digitsVal a)

theorem digitsVal_replicate_zero (n : Nat) :
    digitsVal (List.replicate n '0') = 0 := by
  induction n with
  | zero => rfl
  | succ k ih =>
    rw [digitsVal, List.replicate_succ, List.foldl_cons]
    have hz : (0 * 10 + ('0'.toNat - '0'.toNat)) = 0 := by norm_num
    rw [hz]
    exact ih

theorem digitChar_toNat (n : Nat) (h : n < 10) : (digitChar n).toNat = '0'.toNat + n := by
  interval_cases n <;> rfl

theorem digitChar_isDigit (n : Nat) (h : n < 10) : (digitChar n).isDigit = true := by
  interval_cases n <;> rfl

theorem digitsVal_single (n : Nat) (h : n < 10) : digitsVal [digitChar n] = n := by
  rw [digitsVal, List.foldl_cons, digitChar_toNat n h]
  simp [digitsVal]

theorem natDigitsAux_spec (f : Nat) : ∀ n : Nat, n < 10 ^ f →
    digitsVal (natDigitsAux f n) = n ∧ (∀ c ∈ natDigitsAux f n, c.isDigit = true) ∧
    (natDigitsAux f n).length ≤ f := by
  induction f with
  | zero =>
    intro n hn
    interval_cases n
    refine ⟨rfl, ?_, ?_⟩
    · intro c hc
      rw [show natDigitsAux 0 0 = [] from rfl] at hc
      simp at hc
    · rw [show natDigitsAux 0 0 = [] from rfl]
      simp
  | succ k ih =>
    intro n hn
    by_cases hsmall : n < 10
    · refine ⟨?_, ?_, ?_⟩
      · rw [natDigitsAux, if_pos hsmall]
        exact digitsVal_single n hsmall
      · rw [natDigitsAux, if_pos hsmall]
        intro c hc
        simp only [List.mem_singleton] at hc
        subst hc
        exact digitChar_isDigit n hsmall
      · rw [natDigitsAux, if_pos hsmall]
        simp
    · have hdiv : n / 10 < 10 ^ k := by
        rw [Nat.div_lt_iff_lt_mul (by norm_num)]
        calc n < 10 ^ (k + 1) := hn
        _ = 10 ^ k * 10 := by ring
      obtain ⟨ihv, ihd, ihl⟩ := ih (n / 10) hdiv
      refine ⟨?_, ?_, ?_⟩
      · rw [natDigitsAux, if_neg hsmall, digitsVal_append, ihv, digitsVal_single (n % 10)
          (Nat.mod_lt n (by norm_num))]
        simp only [List.length_singleton, pow_one]
        omega
      · rw [natDigitsAux, if_neg hsmall]
        intro c hc
        rcases List.mem_append.mp hc with hc | hc
        · exact ihd c hc
        · simp only [List.mem_singleton] at hc
          subst hc
          exact digitChar_isDigit (n % 10) (Nat.mod_lt n (by norm_num))
      · rw [natDigitsAux, if_neg hsmall]
        simpa using Nat.add_le_add ihl (le_refl 1)

theorem natDigitsAux_irrel (f : Nat) : ∀ (g n : Nat), 0 < f → 0 < g →
    n < 10 ^ f → n < 10 ^ g → natDigitsAux f n = natDigitsAux g n := by
  induction f with
  | zero => intro g n hf; exact absurd hf (by simp)
  | succ k ih =>
    intro g n _ hg hnf hng
    cases g with
    | zero => exact absurd hg (by simp)
    | succ m =>
      by_cases hsmall : n < 10
      · rw [natDigitsAux, if_pos hsmall, natDigitsAux, if_pos hsmall]
      · have hk : 0 < k := by
          by_contra hcon
          have hk0 : k = 0 := Nat.eq_zero_of_not_pos hcon
          rw [hk0] at hnf
          norm_num at hnf
          exact hsmall hnf
        have hm : 0 < m := by
          by_contra hcon
          have hm0 : m = 0 := Nat.eq_zero_of_not_pos hcon
          rw [hm0] at hng
          norm_num at hng
          exact hsmall hng
        have hdivk : n / 10 < 10 ^ k := by
          rw [Nat.div_lt_iff_lt_mul (by norm_num)]
          calc n < 10 ^ (k + 1) := hnf
          _ = 10 ^ k * 10 := by ring
        have hdivm : n / 10 < 10 ^ m := by
          rw [Nat.div_lt_iff_lt_mul (by norm_num)]
          calc n < 10 ^ (m + 1) := hng
          _ = 10 ^ m * 10 := by ring
        rw [natDigitsAux, if_neg hsmall, natDigitsAux, if_neg hsmall,
          ih m (n / 10) hk hm hdivk hdivm]

theorem nat_lt_ten_pow_succ (n : Nat) : n < 10 ^ (n + 1) := by
  calc n < 10 ^ n := Nat.lt_pow_self (by norm_num) n
  _ ≤ 10 ^ (n + 1) := Nat.pow_le_pow_right (by norm_num) (Nat.le_succ n)

theorem digitsVal_natDigits (n : Nat) : digitsVal (natDigits n) = n :=
  (natDigitsAux_spec (n + 1) n (nat_lt_ten_pow_succ n)).1

theorem natDigits_all_digits (n : Nat) : ∀ c ∈ natDigits n, c.isDigit = true :=
  (natDigitsAux_spec (n + 1) n (nat_lt_ten_pow_succ n)).2.1

theorem natDigits_ne_nil (n : Nat) : natDigits n ≠ [] := by
  rw [natDigits, natDigitsAux]
  by_cases h : n < 10
  · rw [if_pos h]; simp
  · rw [if_neg h]; simp

theorem natDigits_length_le (n k : Nat) (hk : 0 < k) (h : n < 10 ^ k) :
    (natDigits n).length ≤ k := by
  rw [natDigits, natDigitsAux_irrel (n + 1) k n (by simp) hk (nat_lt_ten_pow_succ n) h]
  exact (natDigitsAux_spec k n h).2.2

theorem natDigitsAux_ne_nil (f n : Nat) (hf : 0 < f) : natDigitsAux f n ≠ [] := by
  cases f with
  | zero => exact absurd hf (by simp)
  | succ k =>
    rw [natDigitsAux]
    by_cases h : n < 10
    · rw [if_pos h]; simp
    · rw [if_neg h]; simp

theorem head?_append_left {α : Type} (a b : List α) (ha : a ≠ []) :
    (a ++ b).head? = a.head? := by
  cases a with
  | nil => exact absurd rfl ha
  | cons c t => rfl

theorem natDigits_head_ne_zero_aux (f : Nat) : ∀ n : Nat, 0 < n → n < 10 ^ f →
    ∀ c, (natDigitsAux f n).head? = some c → c ≠ '0' := by
  induction f with
  | zero =>
    intro n hn hf
    interval_cases n
  | succ k ih =>
    intro n hn hnf c hc
    by_cases hsmall : n < 10
    · rw [natDigitsAux, if_pos hsmall] at hc
      simp only [List.head?_cons, Option.some.injEq] at hc
      subst hc
      intro hcon
      have := congrArg Char.toNat hcon
      rw [digitChar_toNat n hsmall] at this
      simp only [show '0'.toNat = 48 from rfl] at this
      omega
    · have hk : 0 < k := by
        by_contra hcon
        have hk0 : k = 0 := Nat.eq_zero_of_not_pos hcon
        rw [hk0] at hnf
        norm_num at hnf
        exact hsmall hnf
      have hdiv : n / 10 < 10 ^ k := by
        rw [Nat.div_lt_iff_lt_mul (by norm_num)]
        calc n < 10 ^ (k + 1) := hnf
        _ = 10 ^ k * 10 := by ring
      have hpos : 0 < n / 10 := Nat.div_pos (Nat.le_of_not_lt hsmall) (by norm_num)
      rw [natDigitsAux, if_neg hsmall,
        head?_append_left _ _ (natDigitsAux_ne_nil k (n / 10) hk)] at hc
      exact ih (n / 10) hpos hdiv c hc

theorem natDigits_head_ne_zero (n : Nat) (hn : 0 < n) :
    ∀ c, (natDigits n).head? = some c → c ≠ '0' :=
  natDigits_head_ne_zero_aux (n + 1) n hn (nat_lt_ten_pow_succ n)

theorem isDigit_ne_dot {c : Char} (h : c.isDigit = true) :
    c ≠ '-' ∧ c ≠ '.' ∧ c ≠ 'e' ∧ c ≠ 'E' := by
  refine ⟨?_, ?_, ?_, ?_⟩ <;> intro heq <;> subst heq <;> revert h <;> decide

theorem parseExpPart_stop (neg : Bool) (mant fracLen : Nat) (rest : List Char)
    (hstop : ∀ c, rest.head? = some c → c ≠ 'e' ∧ c ≠ 'E') :
    parseExpPart neg mant fracLen rest = some (⟨neg, mant, fracLen, 0⟩, rest) := by
  have hcond : (rest.head? == some 'e' || rest.head? == some 'E') = false := by
    cases hh : rest.head? with
    | none => rfl
    | some c =>
      obtain ⟨h1, h2⟩ := hstop c hh
      simp [h1, h2]
  unfold parseExpPart
  rw [hcond]
  simp

theorem parseIntPart_natDigits (n : Nat) (rest : List Char)
    (hstop : ∀ c, rest.head? = some c → c.isDigit = false) :
    parseIntPart (natDigits n ++ rest) = some (natDigits n, rest) := by
  by_cases hn : n = 0
  · subst hn
    rw [show natDigits 0 = ['0'] from rfl, List.singleton_append]
    simp [parseIntPart]
  · cases hnd : natDigits n with
    | nil => exact absurd hnd (natDigits_ne_nil n)
    | cons d ds =>
      have hd0 : d ≠ '0' :=
        natDigits_head_ne_zero n (Nat.pos_of_ne_zero hn) d (by rw [hnd]; rfl)
      have hdd : d.isDigit = true :=
        natDigits_all_digits n d (by rw [hnd]; exact List.mem_cons_self _ _)
      have halld : ∀ c ∈ d :: ds, Char.isDigit c = true := by
        intro c hc
        exact natDigits_all_digits n c (by rw [hnd]; exact hc)
      have hred : parseIntPart (d :: (ds ++ rest))
          = if d = '0' then some (['0'], ds ++ rest)
            else if d.isDigit = true then
              some ((d :: (ds ++ rest)).takeWhile Char.isDigit,
                (d :: (ds ++ rest)).dropWhile Char.isDigit)
            else none := rfl
      rw [List.cons_append, hred, if_neg hd0, if_pos hdd]
      have htw : (d :: (ds ++ rest)).takeWhile Char.isDigit = d :: ds := by
        rw [show d :: (ds ++ rest) = (d :: ds) ++ rest by simp,
          takeWhile_append_all (d :: ds) rest halld,
          takeWhile_head_false rest hstop]
        simp
      have hdw : (d :: (ds ++ rest)).dropWhile Char.isDigit = rest := by
        rw [show d :: (ds ++ rest) = (d :: ds) ++ rest by simp,
          dropWhile_append_all (d :: ds) rest halld,
          dropWhile_head_false rest hstop]
      rw [htw, hdw]

theorem padDigits_spec (k r : Nat) (hk : 0 < k) (hr : r < 10 ^ k) :
    (padDigits k r).length = k ∧ digitsVal (padDigits k r) = r ∧
    (∀ c ∈ padDigits k r, c.isDigit = true) ∧ padDigits k r ≠ [] := by
  have hlen := natDigits_length_le r k hk hr
  refine ⟨?_, ?_, ?_, ?_⟩
  · rw [padDigits]
    simp only [List.length_append, List.length_replicate]
    omega
  · rw [padDigits, digitsVal_append, digitsVal_replicate_zero, digitsVal_natDigits]
    simp
  · intro c hc
    rw [padDigits] at hc
    rcases List.mem_append.mp hc with hc | hc
    · rw [List.eq_of_mem_replicate hc]
      decide
    · exact natDigits_all_digits r c hc
  · rw [padDigits]
    intro hcon
    exact natDigits_ne_nil r (List.append_eq_nil.mp hcon).2

theorem head?_beq_dash (x : List Char) (y : List Char) (hx : x ≠ [])
    (hd : ∀ c ∈ x, c.isDigit = true) : ((x ++ y).head? == some '-') = false := by
  cases x with
  | nil => exact absurd rfl hx
  | cons d ds =>
    have : d ≠ '-' := (isDigit_ne_dot (hd d (List.mem_cons_self _ _))).1
    simp [this]

theorem parseNumber_serialize (neg : Bool) (mant fracLen : Nat) (rest : List Char)
    (hstop : ∀ c, rest.head? = some c →
      c.isDigit = false ∧ c ≠ '.' ∧ c ≠ 'e' ∧ c ≠ 'E') :
    parseNumber (serializeNum neg mant fracLen ++ rest) =
      some (⟨neg, mant, fracLen, 0⟩, rest) := by
  have hstopd : ∀ c, rest.head? = some c → c.isDigit = false := fun c hc => (hstop c hc).1
  have hstope : ∀ c, rest.head? = some c → c ≠ 'e' ∧ c ≠ 'E' :=
    fun c hc => ⟨(hstop c hc).2.2.1, (hstop c hc).2.2.2⟩
  have hdot : (rest.head? == some '.') = false := by
    cases hh : rest.head? with
    | none => rfl
    | some c => simpa using (hstop c hh).2.1
  by_cases hf : fracLen = 0
  · subst hf
    have hbody : serializeNum neg mant 0 ++ rest
        = (if neg then ['-'] else []) ++ (natDigits mant ++ rest) := by
      rw [serializeNum]
      simp
    rw [hbody]
    have hmid : parseNumber (natDigits mant ++ rest)
        = some (⟨false, mant, 0, 0⟩, rest) := by
      rw [parseNumber]
      rw [head?_beq_dash (natDigits mant) rest (natDigits_ne_nil mant)
        (natDigits_all_digits mant)]
      rw [if_neg (show ¬(false = true) from by simp)]
      rw [parseIntPart_natDigits mant rest hstopd]
      dsimp only
      rw [hdot, if_neg (show ¬(false = true) from by simp), digitsVal_natDigits]
      exact parseExpPart_stop false mant 0 rest hstope
    cases neg with
    | false =>
      rw [if_neg (show ¬(false = true) from by simp), List.nil_append]
      exact hmid
    | true =>
      rw [if_pos (show (true = true) from rfl), List.singleton_append, parseNumber]
      rw [show ((('-' :: (natDigits mant ++ rest)).head? == some '-') : Bool) = true
        from by simp]
      rw [if_pos (show (true = true) from rfl), List.tail_cons]
      rw [parseIntPart_natDigits mant rest hstopd]
      dsimp only
      rw [hdot, if_neg (show ¬(false = true) from by simp), digitsVal_natDigits]
      exact parseExpPart_stop true mant 0 rest hstope
  · have hkpos : 0 < fracLen := Nat.pos_of_ne_zero hf
    have hrlt : mant % 10 ^ fracLen < 10 ^ fracLen :=
      Nat.mod_lt mant (Nat.pos_pow_of_pos fracLen (by norm_num))
    obtain ⟨hplen, hpval, hpdig, hpne⟩ := padDigits_spec fracLen (mant % 10 ^ fracLen)
      hkpos hrlt
    set pad := padDigits fracLen (mant % 10 ^ fracLen) with hpad
    have hbody : serializeNum neg mant fracLen ++ rest
        = (if neg then ['-'] else [])
          ++ (natDigits (mant / 10 ^ fracLen) ++ ('.' :: (pad ++ rest))) := by
      rw [serializeNum, if_neg hf]
      simp
    rw [hbody]
    have hstopdot : ∀ c, ('.' :: (pad ++ rest)).head? = some c → c.isDigit = false := by
      intro c hc
      simp only [List.head?_cons, Option.some.injEq] at hc
      subst hc
      decide
    have htwpad : (pad ++ rest).takeWhile Char.isDigit = pad := by
      rw [takeWhile_append_all pad rest hpdig, takeWhile_head_false rest hstopd]
      simp
    have hdwpad : (pad ++ rest).dropWhile Char.isDigit = rest := by
      rw [dropWhile_append_all pad rest hpdig, dropWhile_head_false rest hstopd]
    have hmid : parseNumber (natDigits (mant / 10 ^ fracLen) ++ ('.' :: (pad ++ rest)))
        = some (⟨false, mant, fracLen, 0⟩, rest) := by
      rw [parseNumber]
      rw [head?_beq_dash (natDigits (mant / 10 ^ fracLen)) _
        (natDigits_ne_nil _) (natDigits_all_digits _)]
      rw [if_neg (show ¬(false = true) from by simp)]
      rw [parseIntPart_natDigits (mant / 10 ^ fracLen) ('.' :: (pad ++ rest)) hstopdot]
      dsimp only
      rw [show ((('.' :: (pad ++ rest)).head? == some '.') : Bool) = true from by simp]
      rw [if_pos (show (true = true) from rfl), List.tail_cons, htwpad]
      rw [if_neg (show ¬(pad.isEmpty = true) from by
        rw [List.isEmpty_iff]; exact hpne)]
      rw [hdwpad, digitsVal_natDigits, hpval, hplen]
      rw [show mant / 10 ^ fracLen * 10 ^ fracLen + mant % 10 ^ fracLen = mant from by
        rw [Nat.mul_comm]; exact Nat.div_add_mod mant (10 ^ fracLen)]
      exact parseExpPart_stop false mant fracLen rest hstope
    cases neg with
    | false =>
      rw [if_neg (show ¬(false = true) from by simp), List.nil_append]
      exact hmid
    | true =>
      rw [if_pos (show (true = true) from rfl), List.singleton_append, parseNumber]
      rw [show ((('-' :: (natDigits (mant / 10 ^ fracLen)
        ++ ('.' :: (pad ++ rest)))).head? == some '-') : Bool) = true from by simp]
      rw [if_pos (show (true = true) from rfl), List.tail_cons]
      rw [parseIntPart_natDigits (mant / 10 ^ fracLen) ('.' :: (pad ++ rest)) hstopdot]
      dsimp only
      rw [show ((('.' :: (pad ++ rest)).head? == some '.') : Bool) = true from by simp]
      rw [if_pos (show (true = true) from rfl), List.tail_cons, htwpad]
      rw [if_neg (show ¬(pad.isEmpty = true) from by
        rw [List.isEmpty_iff]; exact hpne)]
      rw [hdwpad, digitsVal_natDigits, hpval, hplen]
      rw [show mant / 10 ^ fracLen * 10 ^ fracLen + mant % 10 ^ fracLen = mant from by
        rw [Nat.mul_comm]; exact Nat.div_add_mod mant (10 ^ fracLen)]
      exact parseExpPart_stop true mant fracLen rest hstope

theorem hexVal_hexDigitChar (k : Nat) (h : k < 16) : hexVal (hexDigitChar k) = some k := by
  interval_cases k <;> decide

theorem parseStringBody_escape (s rest : List Char) :
    parseStringBody (escBody s ++ '"' :: rest) = some (s, rest) := by
  induction s with
  | nil =>
    rw [show escBody [] = [] from rfl, List.nil_append, parseStringBody.eq_def]
    try dsimp only
    rw [if_pos rfl]
  | cons c t ih =>
    rw [show escBody (c :: t) = escChar c ++ escBody t from rfl, List.append_assoc]
    by_cases h1 : c = '"'
    · subst h1
      rw [show escChar '"' ++ (escBody t ++ '"' :: rest) = '\\' :: '"' :: (escBody t ++ '"' :: rest) from rfl,
        parseStringBody.eq_def]
      try dsimp only
      rw [if_neg (by decide), if_pos (show ('\\' : Char) = '\\' from rfl)]
      try dsimp only
      rw [if_pos (show ('"' : Char) = '"' ∨ ('"' : Char) = '\\' ∨ ('"' : Char) = '/' from Or.inl rfl)]
      rw [ih]
      rfl
    · by_cases h2 : c = '\\'
      · subst h2
        rw [show escChar '\\' ++ (escBody t ++ '"' :: rest) = '\\' :: '\\' :: (escBody t ++ '"' :: rest) from rfl,
          parseStringBody.eq_def]
        try dsimp only
        rw [if_neg (by decide), if_pos (show ('\\' : Char) = '\\' from rfl)]
        try dsimp only
        rw [if_pos (show ('\\' : Char) = '"' ∨ ('\\' : Char) = '\\' ∨ ('\\' : Char) = '/' from Or.inr (Or.inl rfl))]
        rw [ih]
        rfl
      · by_cases h3 : c = '\n'
        · subst h3
          rw [show escChar '\n' ++ (escBody t ++ '"' :: rest) = '\\' :: 'n' :: (escBody t ++ '"' :: rest) from rfl,
            parseStringBody.eq_def]
          try dsimp only
          rw [if_neg (by decide), if_pos (show ('\\' : Char) = '\\' from rfl)]
          try dsimp only
          rw [if_neg (by decide), if_neg (by decide), if_neg (by decide),
            if_pos (show ('n' : Char) = 'n' from rfl)]
          rw [ih]
          rfl
        · by_cases h4 : c = '\r'
          · subst h4
            rw [show escChar '\r' ++ (escBody t ++ '"' :: rest) = '\\' :: 'r' :: (escBody t ++ '"' :: rest) from rfl,
              parseStringBody.eq_def]
            try dsimp only
            rw [if_neg (by decide), if_pos (show ('\\' : Char) = '\\' from rfl)]
            try dsimp only
            rw [if_neg (by decide), if_neg (by decide), if_neg (by decide), if_neg (by decide),
              if_pos (show ('r' : Char) = 'r' from rfl)]
            rw [ih]
            rfl
          · by_cases h5 : c = '\t'
            · subst h5
              rw [show escChar '\t' ++ (escBody t ++ '"' :: rest) = '\\' :: 't' :: (escBody t ++ '"' :: rest) from rfl,
                parseStringBody.eq_def]
              try dsimp only
              rw [if_neg (by decide), if_pos (show ('\\' : Char) = '\\' from rfl)]
              try dsimp only
              rw [if_neg (by decide), if_neg (by decide), if_neg (by decide), if_neg (by decide), if_neg (by decide),
                if_pos (show ('t' : Char) = 't' from rfl)]
              rw [ih]
              rfl
            · by_cases h6 : c.toNat = 0x08
              · have hc : c = Char.ofNat 0x08 := by
                  rw [← h6, Char.ofNat_toNat]
                subst hc
                rw [show escChar (Char.ofNat 0x08) ++ (escBody t ++ '"' :: rest) = '\\' :: 'b' :: (escBody t ++ '"' :: rest) from rfl,
                  parseStringBody.eq_def]
                try dsimp only
                rw [if_neg (by decide), if_pos (show ('\\' : Char) = '\\' from rfl)]
                try dsimp only
                rw [if_neg (by decide),
                  if_pos (show ('b' : Char) = 'b' from rfl)]
                rw [ih]
                rfl
              · by_cases h7 : c.toNat = 0x0C
                · have hc : c = Char.ofNat 0x0C := by
                    rw [← h7, Char.ofNat_toNat]
                  subst hc
                  rw [show escChar (Char.ofNat 0x0C) ++ (escBody t ++ '"' :: rest) = '\\' :: 'f' :: (escBody t ++ '"' :: rest) from rfl,
                    parseStringBody.eq_def]
                  try dsimp only
                  rw [if_neg (by decide), if_pos (show ('\\' : Char) = '\\' from rfl)]
                  try dsimp only
                  rw [if_neg (by decide), if_neg (by decide),
                    if_pos (show ('f' : Char) = 'f' from rfl)]
                  rw [ih]
                  rfl
                · by_cases h8 : c.toNat < 0x20
                  · have hesc : escChar c ++ (escBody t ++ '"' :: rest)
                        = '\\' :: 'u' :: '0' :: '0' :: hexDigitChar (c.toNat / 16)
                          :: hexDigitChar (c.toNat % 16) :: (escBody t ++ '"' :: rest) := by
                      rw [escChar, if_neg h1, if_neg h2, if_neg h3, if_neg h4, if_neg h5,
                        if_neg h6, if_neg h7, if_pos h8]
                      rfl
                    rw [hesc, parseStringBody.eq_def]
                    try dsimp only
                    rw [if_neg (by decide), if_pos (show ('\\' : Char) = '\\' from rfl)]
                    try dsimp only
                    rw [if_neg (by decide), if_neg (by decide), if_neg (by decide),
                      if_neg (by decide), if_neg (by decide), if_neg (by decide),
                      if_pos (show ('u' : Char) = 'u' from rfl)]
                    rw [hexVal_hexDigitChar (c.toNat / 16) (by omega),
                      hexVal_hexDigitChar (c.toNat % 16) (Nat.mod_lt _ (by norm_num))]
                    rw [show hexVal '0' = some 0 from rfl]
                    try dsimp only
                    have hn : ((0 * 16 + 0) * 16 + c.toNat / 16) * 16 + c.toNat % 16
                        = c.toNat := by omega
                    rw [hn]
                    rw [if_pos (show c.toNat.isValidChar from Or.inl (by
                      change c.toNat < 55296
                      omega))]
                    rw [ih, Char.ofNat_toNat]
                    rfl
                  · have hesc : escChar c = [c] := by
                      rw [escChar, if_neg h1, if_neg h2, if_neg h3, if_neg h4, if_neg h5,
                        if_neg h6, if_neg h7, if_neg h8]
                    rw [hesc, List.singleton_append, parseStringBody.eq_def]
                    try dsimp only
                    rw [if_neg h1, if_neg h2, if_neg (by omega)]
                    rw [ih]
                    rfl

theorem isDigit_not_jsonWs {c : Char} (h : c.isDigit = true) : jsonWs c = false := by
  by_contra hcon
  rw [Bool.not_eq_false, jsonWs] at hcon
  simp only [Bool.or_eq_true, decide_eq_true_eq] at hcon
  rcases hcon with ((h1 | h1) | h1) | h1 <;> (subst h1; revert h; decide)

theorem isDigit_ne_valueheads {c : Char} (h : c.isDigit = true) :
    c ≠ '{' ∧ c ≠ '[' ∧ c ≠ '"' ∧ c ≠ 't' ∧ c ≠ 'f' ∧ c ≠ 'n' := by
  refine ⟨?_, ?_, ?_, ?_, ?_, ?_⟩ <;> intro heq <;> subst heq <;> revert h <;> decide

theorem skipJsonWs_cons {c : Char} (rest : List Char) (h : jsonWs c = false) :
    skipJsonWs (c :: rest) = c :: rest := by
  rw [skipJsonWs, List.dropWhile_cons, if_neg (by rw [h]; simp)]

/-- Parsing one serialized primitive value, followed by a comma or a closing
brace. -/
theorem parseValueF_prim (fuel : Nat) (v : Prim) (tail : List Char)
    (htail : tail.head? = some ',' ∨ tail.head? = some '}') :
    parseValueF (fuel + 1) (serializePrim v ++ tail) = some (primToJson v, tail) := by
  have hstop : ∀ c, tail.head? = some c →
      c.isDigit = false ∧ c ≠ '.' ∧ c ≠ 'e' ∧ c ≠ 'E' := by
    intro c hc
    rcases htail with h | h <;> (rw [hc] at h; injection h with h; subst h; exact ⟨by decide, by decide, by decide, by decide⟩)
  cases v with
  | str s =>
    rw [show serializePrim (.str s) ++ tail
      = '"' :: (escBody s.data ++ '"' :: tail) from by
        rw [show serializePrim (.str s) = '"' :: escBody s.data ++ ['"'] from rfl]
        simp]
    rw [parseValueF.eq_def]
    try dsimp only
    rw [skipJsonWs_cons _ (by decide)]
    try dsimp only
    rw [if_neg (by decide), if_neg (by decide), if_pos (show ('"' : Char) = '"' from rfl)]
    rw [parseStringBody_escape s.data tail]
    rfl
  | bool b =>
    cases b with
    | true =>
      rw [show serializePrim (.bool true) ++ tail
        = 't' :: 'r' :: 'u' :: 'e' :: tail from rfl]
      rw [parseValueF.eq_def]
      try dsimp only
      rw [skipJsonWs_cons _ (by decide)]
      try dsimp only
      rw [if_neg (by decide), if_neg (by decide), if_neg (by decide),
        if_pos (show ('t' : Char) = 't' from rfl)]
      rfl
    | false =>
      rw [show serializePrim (.bool false) ++ tail
        = 'f' :: 'a' :: 'l' :: 's' :: 'e' :: tail from rfl]
      rw [parseValueF.eq_def]
      try dsimp only
      rw [skipJsonWs_cons _ (by decide)]
      try dsimp only
      rw [if_neg (by decide), if_neg (by decide), if_neg (by decide),
        if_neg (by decide), if_pos (show ('f' : Char) = 'f' from rfl)]
      rfl
  | null =>
    rw [show serializePrim .null ++ tail = 'n' :: 'u' :: 'l' :: 'l' :: tail from rfl]
    rw [parseValueF.eq_def]
    try dsimp only
    rw [skipJsonWs_cons _ (by decide)]
    try dsimp only
    rw [if_neg (by decide), if_neg (by decide), if_neg (by decide),
      if_neg (by decide), if_neg (by decide), if_pos (show ('n' : Char) = 'n' from rfl)]
    rfl
  | num neg mant fracLen =>
    have hnum := parseNumber_serialize neg mant fracLen tail hstop
    cases hser : serializeNum neg mant fracLen with
    | nil =>
      exfalso
      have : (serializeNum neg mant fracLen).length = 0 := by rw [hser]; rfl
      rw [serializeNum] at this
      by_cases hneg : neg
      · subst hneg
        simp at this
      · have hnegf : neg = false := Bool.eq_false_iff.mpr hneg
        subst hnegf
        rw [if_neg (by simp)] at this
        simp only [List.nil_append, List.length_append] at this
        by_cases hf : fracLen = 0
        · rw [if_pos hf] at this
          exact natDigits_ne_nil mant (List.eq_nil_of_length_eq_zero (by simpa using this))
        · rw [if_neg hf] at this
          simp only [List.length_append, List.length_cons] at this
          omega
    | cons d ds =>
      have hdchar : d.isDigit = true ∨ d = '-' := by
        rw [serializeNum] at hser
        by_cases hneg : neg
        · subst hneg
          rw [if_pos rfl, List.singleton_append] at hser
          injection hser with hh _
          exact Or.inr hh.symm
        · have hnegf : neg = false := Bool.eq_false_iff.mpr hneg
          subst hnegf
          rw [if_neg (by simp), List.nil_append] at hser
          by_cases hf : fracLen = 0
          · rw [if_pos hf] at hser
            left
            exact natDigits_all_digits mant d (by rw [hser]; exact List.mem_cons_self _ _)
          · rw [if_neg hf] at hser
            left
            cases hnd : natDigits (mant / 10 ^ fracLen) with
            | nil => exact absurd hnd (natDigits_ne_nil _)
            | cons d2 ds2 =>
              rw [hnd, List.cons_append] at hser
              injection hser with hh _
              subst hh
              exact natDigits_all_digits _ d2 (by rw [hnd]; exact List.mem_cons_self _ _)
      rw [show serializePrim (.num neg mant fracLen) = serializeNum neg mant fracLen
        from rfl, hser, List.cons_append, parseValueF.eq_def]
      try dsimp only
      have hnws : jsonWs d = false := by
        rcases hdchar with h | h
        · exact isDigit_not_jsonWs h
        · subst h; decide
      rw [skipJsonWs_cons _ hnws]
      try dsimp only
      have hne : d ≠ '{' ∧ d ≠ '[' ∧ d ≠ '"' ∧ d ≠ 't' ∧ d ≠ 'f' ∧ d ≠ 'n' := by
        rcases hdchar with h | h
        · exact isDigit_ne_valueheads h
        · subst h
          exact ⟨by decide, by decide, by decide, by decide, by decide, by decide⟩
      rw [if_neg hne.1, if_neg hne.2.1, if_neg hne.2.2.1, if_neg hne.2.2.2.1,
        if_neg hne.2.2.2.2.1, if_neg hne.2.2.2.2.2]
      rw [show d :: (ds ++ tail) = (d :: ds) ++ tail from rfl, ← hser, hnum]
      rfl

theorem serializeMembers_cons_form (k : String) (v : Prim)
    (tl : List (String × Prim)) :
    serializeMembers ((k, v) :: tl)
      = '"' :: (escBody k.data ++ '"' :: ':'
          :: (serializePrim v ++ (if tl.isEmpty then [] else ',' :: serializeMembers tl))) := by
  cases tl with
  | nil =>
    show quoteString k ++ ':' :: serializePrim v = _
    rw [quoteString,
      show (if ([] : List (String × Prim)).isEmpty then ([] : List Char)
        else ',' :: serializeMembers []) = [] from rfl]
    simp
  | cons kv2 tl2 =>
    show quoteString k ++ ':' :: serializePrim v ++ ',' :: serializeMembers (kv2 :: tl2) = _
    rw [quoteString,
      show (if (kv2 :: tl2).isEmpty then ([] : List Char)
        else ',' :: serializeMembers (kv2 :: tl2)) = ',' :: serializeMembers (kv2 :: tl2)
        from rfl]
    simp only [List.cons_append, List.singleton_append, List.append_assoc, List.nil_append]

theorem serializeMembers_length (m : List (String × Prim)) :
    m.length ≤ (serializeMembers m).length := by
  induction m with
  | nil => simp [serializeMembers]
  | cons kv tl ih =>
    obtain ⟨k, v⟩ := kv
    rw [serializeMembers_cons_form]
    cases htl : tl.isEmpty with
    | true =>
      rw [List.isEmpty_iff] at htl
      subst htl
      simp
    | false =>
      simp only [List.length_cons, List.length_append,
        if_neg (show ¬(false = true) from by simp)]
      omega

/-- Parsing the serialized members of a nonempty flat mapping, up to the
closing brace. -/
theorem parseMembersF_serialize :
    ∀ (m : List (String × Prim)) (fuel : Nat) (rest0 : List Char),
    m ≠ [] → m.length + 1 ≤ fuel →
    parseMembersF fuel (serializeMembers m ++ '}' :: rest0)
      = some (m.map (fun p => (p.1, primToJson p.2)), rest0) := by
  intro m
  induction m with
  | nil => intro fuel rest0 h; exact absurd rfl h
  | cons kv tl ih =>
    intro fuel rest0 _ hfuel
    obtain ⟨k, v⟩ := kv
    simp only [List.length_cons] at hfuel
    cases fuel with
    | zero => omega
    | succ f =>
      have hf1 : 1 ≤ f := by omega
      obtain ⟨f2, hf2⟩ : ∃ f2, f = f2 + 1 := ⟨f - 1, by omega⟩
      rw [serializeMembers_cons_form]
      rw [show ('"' :: (escBody k.data ++ '"' :: ':'
          :: (serializePrim v ++ (if tl.isEmpty then [] else ',' :: serializeMembers tl))))
          ++ '}' :: rest0
        = '"' :: (escBody k.data ++ '"' :: (':'
          :: (serializePrim v ++ ((if tl.isEmpty then [] else ',' :: serializeMembers tl)
            ++ '}' :: rest0)))) from by simp]
      rw [parseMembersF.eq_def]
      try dsimp only
      try rw [if_pos (show ('"' : Char) = '"' from rfl)]
      rw [parseStringBody_escape k.data]
      try dsimp only
      rw [skipJsonWs_cons _ (by decide)]
      try dsimp only
      try rw [if_pos (show (':' : Char) = ':' from rfl)]
      cases htl : tl.isEmpty with
      | true =>
        rw [List.isEmpty_iff] at htl
        subst htl
        rw [if_pos (show (true = true) from rfl)]
        rw [List.nil_append, hf2, parseValueF_prim f2 v ('}' :: rest0) (Or.inr rfl)]
        simp [skipJsonWs, jsonWs, List.dropWhile_cons]
      | false =>
        have htlne : tl ≠ [] := by
          intro hcon
          subst hcon
          simp at htl
        rw [if_neg (show ¬(false = true) from by simp), List.cons_append, hf2,
          parseValueF_prim f2 v (',' :: (serializeMembers tl ++ '}' :: rest0)) (Or.inl rfl)]
        have hhead : ∃ d ds, serializeMembers tl ++ '}' :: rest0 = d :: ds
            ∧ jsonWs d = false := by
          cases tl with
          | nil => exact absurd rfl htlne
          | cons kv2 tl2 =>
            obtain ⟨k2, v2⟩ := kv2
            rw [serializeMembers_cons_form]
            exact ⟨'"', _, List.cons_append _ _ _, by decide⟩
        obtain ⟨d, ds, hds, hdws⟩ := hhead
        have hskip : skipJsonWs (serializeMembers tl ++ '}' :: rest0)
            = serializeMembers tl ++ '}' :: rest0 := by
          rw [hds]
          exact skipJsonWs_cons ds hdws
        have hskip2 : List.dropWhile jsonWs (serializeMembers tl ++ '}' :: rest0)
            = serializeMembers tl ++ '}' :: rest0 := hskip
        simp only [skipJsonWs, jsonWs, List.dropWhile_cons]
        simp [hskip2, ih (f2 + 1) rest0 htlne (by omega)]

/-- Parsing the compact serialization of a flat mapping gives back exactly the
mapping, as `JSON.parse` output. -/
theorem jsonParseL_serializeObj (m : List (String × Prim)) :
    jsonParseL (serializeObj m) = .ok (primObjToJson m) := by
  rw [jsonParseL.eq_def]
  rw [show serializeObj m = '{' :: (serializeMembers m ++ ['}']) from rfl]
  have hlen : ('{' :: (serializeMembers m ++ ['}'])).length
      = (serializeMembers m).length + 2 := by simp
  rw [hlen]
  rw [show (serializeMembers m).length + 2 + 1 = ((serializeMembers m).length + 2) + 1
    from rfl]
  rw [parseValueF.eq_def]
  try dsimp only
  rw [skipJsonWs_cons _ (by decide)]
  try dsimp only
  rw [if_pos rfl]
  cases m with
  | nil =>
    rw [show serializeMembers [] = [] from rfl, List.nil_append]
    rw [skipJsonWs_cons _ (by decide)]
    try dsimp only
    rfl
  | cons kv tl =>
    obtain ⟨k, v⟩ := kv
    have hform := serializeMembers_cons_form k v tl
    have hhead : ∃ ds, serializeMembers ((k, v) :: tl) ++ ['}'] = '"' :: ds := by
      rw [hform]
      exact ⟨_, List.cons_append _ _ _⟩
    obtain ⟨ds, hds⟩ := hhead
    rw [hds, skipJsonWs_cons _ (by decide)]
    try dsimp only
    rw [← hds]
    have hh : ((serializeMembers ((k, v) :: tl) ++ ['}']).head? == some '}') = false := by
      rw [hds]
      rfl
    rw [hh]
    rw [if_neg (show ¬(false = true) from by simp)]
    rw [show serializeMembers ((k, v) :: tl) ++ ['}']
      = serializeMembers ((k, v) :: tl) ++ '}' :: [] from rfl]
    rw [parseMembersF_serialize ((k, v) :: tl) ((serializeMembers ((k, v) :: tl)).length + 2)
      [] (by simp) (by
        have := serializeMembers_length ((k, v) :: tl)
        omega)]
    try dsimp only
    rfl

/-! The trailing-comma repair is the identity when its pattern matches
nowhere. -/

theorem fixTCGo_none_cons (c : Char) (rest : List Char) :
    fixTCGo none (c :: rest)
      = if c = ',' then fixTCGo (some []) rest else c :: fixTCGo none rest := rfl

theorem fixTCGo_some_cons (buf : List Char) (c : Char) (rest : List Char) :
    fixTCGo (some buf) (c :: rest)
      = if c = '}' ∨ c = ']' then c :: fixTCGo none rest
        else if jsWs c then fixTCGo (some (buf ++ [c])) rest
        else ',' :: buf ++
          (if c = ',' then fixTCGo (some []) rest else c :: fixTCGo none rest) := rfl

theorem matchAtTC_marker (buf rest : List Char) (c : Char)
    (hbuf : ∀ x ∈ buf, jsWs x = true) (hc : c = '}' ∨ c = ']') :
    matchAtTC (',' :: (buf ++ c :: rest)) = true := by
  have hcws : jsWs c = false := by rcases hc with h | h <;> subst h <;> decide
  rw [matchAtTC]
  rw [dropWhile_append_all buf (c :: rest) hbuf]
  rw [List.dropWhile_cons, if_neg (by simp [hcws])]
  rcases hc with h | h <;> subst h <;> simp

/-- No match anywhere means the trailing-comma scan reproduces its input, for
any pending state whose buffered whitespace is genuine. -/
theorem fixTCGo_nomatch :
    ∀ (cs : List Char) (st : Option (List Char)),
    (∀ buf, st = some buf → ∀ c ∈ buf, jsWs c = true) →
    (∀ i, matchAtTC ((tcPend st ++ cs).drop i) = false) →
    fixTCGo st cs = tcPend st ++ cs := by
  intro cs
  induction cs with
  | nil =>
    intro st _ _
    cases st <;> simp [fixTCGo, tcPend]
  | cons c rest ih =>
    intro st hinv h
    cases st with
    | none =>
      rw [fixTCGo_none_cons]
      by_cases hc : c = ','
      · subst hc
        rw [if_pos rfl]
        have := ih (some []) (by intro buf hb; cases hb; intro x hx; simp at hx)
          (by intro i; simpa [tcPend] using h i)
        simpa [tcPend] using this
      · rw [if_neg hc]
        have := ih none (by intro buf hb; cases hb)
          (fun i => by simpa [tcPend] using h (i + 1))
        simp only [tcPend, List.nil_append] at this ⊢
        rw [this]
    | some buf =>
      have hbuf : ∀ x ∈ buf, jsWs x = true := hinv buf rfl
      rw [fixTCGo_some_cons]
      by_cases hcl : c = '}' ∨ c = ']'
      · exfalso
        have h0 := h 0
        simp only [tcPend, List.drop_zero] at h0
        rw [show (',' :: buf) ++ (c :: rest) = ',' :: (buf ++ c :: rest) from rfl] at h0
        rw [matchAtTC_marker buf rest c hbuf hcl] at h0
        exact Bool.noConfusion h0
      · rw [if_neg hcl]
        by_cases hws : jsWs c = true
        · rw [if_pos hws]
          have := ih (some (buf ++ [c])) (by
            intro b hb
            cases hb
            intro x hx
            rcases List.mem_append.mp hx with hx | hx
            · exact hbuf x hx
            · simp only [List.mem_singleton] at hx; subst hx; exact hws)
            (by
              intro i
              have := h i
              simpa [tcPend, List.append_assoc] using this)
          simp only [tcPend] at this ⊢
          rw [this]
          simp [List.append_assoc]
        · rw [if_neg hws]
          by_cases hc : c = ','
          · subst hc
            rw [if_pos rfl]
            have := ih (some []) (by intro b hb; cases hb; intro x hx; simp at hx)
              (by
                intro i
                have := h ((',' :: buf).length + i)
                rwa [show tcPend (some buf) ++ (',' :: rest)
                  = (',' :: buf) ++ (',' :: rest) from rfl, drop_append_len] at this)
            simp only [tcPend] at this
            rw [this]
            simp [tcPend]
          · rw [if_neg hc]
            have := ih none (by intro b hb; cases hb)
              (by
                intro i
                have := h ((',' :: buf ++ [c]).length + i)
                rwa [show tcPend (some buf) ++ (c :: rest) = (',' :: buf ++ [c]) ++ rest by
                  simp [tcPend], drop_append_len] at this)
            simp only [tcPend, List.nil_append] at this
            rw [this]
            simp [tcPend]

theorem fixTC_id_of_no_match (cs : List Char) (h : hasTC cs = false) :
    fixTC cs = cs := by
  unfold fixTC
  have := fixTCGo_nomatch cs none (by intro buf hb; cases hb)
    (by
      intro i
      simp only [tcPend, List.nil_append]
      exact matchAt_false_of_any_false _ cs h rfl i)
  simpa [tcPend] using this

theorem getLast?_append_right {α : Type} (a b : List α) (hb : b ≠ []) :
    (a ++ b).getLast? = b.getLast? := by
  rw [← List.head?_reverse, ← List.head?_reverse, List.reverse_append]
  exact head?_append_left b.reverse a.reverse (by simpa using hb)

/-! The global fence removal of `map.js` removes an interior fence token. -/

theorem stripFencesGo_t0_append (a b : List Char) (ha : backtick ∉ a) :
    stripFencesGo .t0 (a ++ b) = a ++ stripFencesGo .t0 b := by
  induction a with
  | nil => simp
  | cons c t ih =>
    rw [List.cons_append,
      show stripFencesGo .t0 (c :: (t ++ b))
        = if c = backtick then stripFencesGo .t1 (t ++ b)
          else c :: stripFencesGo .t0 (t ++ b) from rfl,
      if_neg (fun hc => ha (by rw [hc]; exact List.mem_cons_self _ _)),
      ih fun hm => ha (List.mem_cons_of_mem c hm)]
    rfl

/-- After a complete bare fence, when the tag `json` does not follow, the scan
continues exactly as a fresh scan would. -/
theorem stripFencesGo_j0_skip (b : List Char) (hb : jsonPrefixAt b = false) :
    stripFencesGo .j0 b = stripFencesGo .t0 b := by
  cases b with
  | nil => rfl
  | cons c1 r1 =>
    rw [show stripFencesGo .j0 (c1 :: r1)
      = if c1 = 'j' then stripFencesGo .j1 r1
        else if c1 = backtick then stripFencesGo .t1 r1
        else c1 :: stripFencesGo .t0 r1 from rfl,
      show stripFencesGo .t0 (c1 :: r1)
        = if c1 = backtick then stripFencesGo .t1 r1
          else c1 :: stripFencesGo .t0 r1 from rfl]
    by_cases h1 : c1 = 'j'
    · subst h1
      rw [if_pos rfl, if_neg (by decide)]
      cases r1 with
      | nil => rfl
      | cons c2 r2 =>
        rw [show stripFencesGo .j1 (c2 :: r2)
          = if c2 = 's' then stripFencesGo .j2 r2
            else if c2 = backtick then 'j' :: stripFencesGo .t1 r2
            else 'j' :: c2 :: stripFencesGo .t0 r2 from rfl,
          show stripFencesGo .t0 (c2 :: r2)
            = if c2 = backtick then stripFencesGo .t1 r2
              else c2 :: stripFencesGo .t0 r2 from rfl]
        by_cases h2 : c2 = 's'
        · subst h2
          rw [if_pos rfl, if_neg (by decide)]
          cases r2 with
          | nil => rfl
          | cons c3 r3 =>
            rw [show stripFencesGo .j2 (c3 :: r3)
              = if c3 = 'o' then stripFencesGo .j3 r3
                else if c3 = backtick then 'j' :: 's' :: stripFencesGo .t1 r3
                else 'j' :: 's' :: c3 :: stripFencesGo .t0 r3 from rfl,
              show stripFencesGo .t0 (c3 :: r3)
                = if c3 = backtick then stripFencesGo .t1 r3
                  else c3 :: stripFencesGo .t0 r3 from rfl]
            by_cases h3 : c3 = 'o'
            · subst h3
              rw [if_pos rfl, if_neg (by decide)]
              cases r3 with
              | nil => rfl
              | cons c4 r4 =>
                rw [show stripFencesGo .j3 (c4 :: r4)
                  = if c4 = 'n' then stripFencesGo .t0 r4
                    else if c4 = backtick then 'j' :: 's' :: 'o' :: stripFencesGo .t1 r4
                    else 'j' :: 's' :: 'o' :: c4 :: stripFencesGo .t0 r4 from rfl,
                  show stripFencesGo .t0 (c4 :: r4)
                    = if c4 = backtick then stripFencesGo .t1 r4
                      else c4 :: stripFencesGo .t0 r4 from rfl]
                by_cases h4 : c4 = 'n'
                · exfalso
                  subst h4
                  rw [show jsonPrefixAt ('j' :: 's' :: 'o' :: 'n' :: r4) = true from by
                    rw [jsonPrefixAt]; rfl] at hb
                  exact Bool.noConfusion hb
                · rw [if_neg h4]
                  by_cases h4b : c4 = backtick
                  · subst h4b
                    rw [if_pos rfl, if_pos rfl]
                  · rw [if_neg h4b, if_neg h4b]
            · rw [if_neg h3]
              by_cases h3b : c3 = backtick
              · subst h3b
                rw [if_pos rfl, if_pos rfl]
              · rw [if_neg h3b, if_neg h3b]
        · rw [if_neg h2]
          by_cases h2b : c2 = backtick
          · subst h2b
            rw [if_pos rfl, if_pos rfl]
          · rw [if_neg h2b, if_neg h2b]
    · rw [if_neg h1]

/-- An interior bare fence is removed by the `map.js` fence pass: with no
backtick before it and no `json` tag after it, the three backticks vanish and
the rest is processed as before. -/
theorem stripFences_marker (a b : List Char) (ha : backtick ∉ a)
    (hb : jsonPrefixAt b = false) :
    stripFences (a ++ backtick :: backtick :: backtick :: b) = a ++ stripFences b := by
  unfold stripFences
  rw [stripFencesGo_t0_append a _ ha]
  rw [show stripFencesGo .t0 (backtick :: backtick :: backtick :: b)
    = stripFencesGo .j0 b from by
      rw [show stripFencesGo .t0 (backtick :: backtick :: backtick :: b)
        = if backtick = backtick then stripFencesGo .t1 (backtick :: backtick :: b)
          else backtick :: stripFencesGo .t0 (backtick :: backtick :: b) from rfl,
        if_pos rfl,
        show stripFencesGo .t1 (backtick :: backtick :: b)
          = if backtick = backtick then stripFencesGo .t2 (backtick :: b)
            else backtick :: backtick :: stripFencesGo .t0 (backtick :: b) from rfl,
        if_pos rfl,
        show stripFencesGo .t2 (backtick :: b)
          = if backtick = backtick then stripFencesGo .j0 b
            else backtick :: backtick :: backtick :: stripFencesGo .t0 b from rfl,
        if_pos rfl]]
  rw [stripFencesGo_j0_skip b hb]

/-! The claims. -/

/-- C1: the spec says extractJSON never raises and signals every failure by
returning null.  This holds for the `places.js` implementation, proved here:
with no bounded span, and with a candidate whose repaired parse fails, the
result is `none`.  The `map.js` implementation refutes the claim as stated
(see the counterexample): it throws on a missing object and propagates parse
errors. -/
theorem C1_never_raises (s : String) :
    (jsonObjectMatch (jsTrimL (stripCitM s.data)) = none →
      Places.cleanAndParseJSON s = none)
    ∧ (∀ cand e, jsonObjectMatch (jsTrimL (stripCitM s.data)) = some cand →
        jsonParseL (fixTC cand) = Except.error e → Places.cleanAndParseJSON s = none) := by
  constructor
  · intro hm
    unfold Places.cleanAndParseJSON
    by_cases he : s.data.isEmpty = true
    · rw [if_pos he]
    · rw [if_neg he, hm]
  · intro cand e hm hp
    unfold Places.cleanAndParseJSON
    by_cases he : s.data.isEmpty = true
    · rw [if_pos he]
    · rw [if_neg he, hm]
      dsimp only
      rw [hp]

theorem C1_witness :
    Places.cleanAndParseJSON "Location not found" = none
    ∧ Places.cleanAndParseJSON "\x7b\"a\":tru\x7d" = none :=
  ⟨(C1_never_raises "Location not found").1 rfl,
   (C1_never_raises "\x7b\"a\":tru\x7d").2 ("\x7b\"a\":tru\x7d".data)
     "Unexpected token in JSON" rfl rfl⟩

/-- C1 counterexample: the `map.js` extractJSON throws (modelled as
`Except.error`) instead of returning null when the cleaned text holds no
JSON object. -/
theorem C1_counterexample :
    MapRoute.cleanAndParseJSON "hello"
      = Except.error "No JSON object found in AI response." := rfl

/-- C2: extractJSON takes the inclusive span from the first brace to the last
brace of the citation-stripped, trimmed input, repairs a trailing comma, and
parses; the example with surrounding prose and a trailing comma yields the
mapping with lat 12.34 and lon 78.9, and with no bounded substring the result
is null. -/
theorem C2_extract_behavior (s : String) :
    Places.cleanAndParseJSON "Sure! Here you go: \x7b\"lat\": 12.34, \"lon\": 78.9,\x7d"
      = some (Json.obj [("lat", Json.num ⟨false, 1234, 2, 0⟩),
          ("lon", Json.num ⟨false, 789, 1, 0⟩)])
    ∧ (hasBoundedBraces (jsTrimL (stripCitM s.data)) = false →
        Places.cleanAndParseJSON s = none) := by
  refine ⟨rfl, fun h => ?_⟩
  unfold Places.cleanAndParseJSON
  by_cases he : s.data.isEmpty = true
  · rw [if_pos he]
  · rw [if_neg he, jsonObjectMatch_none_of_unbounded _ h]

theorem C2_witness : Places.cleanAndParseJSON "Location is unknown" = none :=
  (C2_extract_behavior "Location is unknown").2 rfl

/-- C3: the spec says stripMarkup removes every bracketed citation group,
including multi-number groups such as `[2, 7]`.  The `places.js` class
`[\d,\s]+` does remove any such group, proved here in general; the `map.js`
pattern `\[\d+\]` does not (see the counterexample), refuting the claim as
stated for that implementation. -/
theorem C3_citation_group_removed (a r b : List Char) (ha : '[' ∉ a)
    (hr : ∀ c ∈ r, citClass c = true) (hne : r ≠ []) :
    stripCitM (a ++ '[' :: (r ++ ']' :: b)) = a ++ stripCitM b :=
  stripCitM_marker a r b ha hr hne

theorem C3_witness :
    stripCitM ("see ".data ++ '[' :: ("2, 7".data ++ ']' :: " ok".data))
      = "see ".data ++ stripCitM " ok".data :=
  C3_citation_group_removed _ _ _ (by decide) (by decide) (by decide)

/-- C3 counterexample: `map.js` leaves the multi-number citation marker
`[2, 7]` (a citation marker in the spec's sense) in its output. -/
theorem C3_counterexample :
    MapRoute.cleanAIResponse "see [2, 7] ok" = "see [2, 7] ok"
    ∧ specCitationMarkerPresent ((MapRoute.cleanAIResponse "see [2, 7] ok").data) = true :=
  ⟨rfl, by decide⟩

/-- C4: the spec claims stripMarkup is idempotent for every string.  Removing
an inner citation group can create a fresh one, so idempotence fails in
general (see the counterexample); it does hold, proved here, whenever the
first pass leaves no fence and no citation match behind. -/
theorem C4_idempotent_when_clean (s : String)
    (hf : hasFence (Places.cleanHtmlResponse s).data = false)
    (hc : hasCitM (Places.cleanHtmlResponse s).data = false) :
    Places.cleanHtmlResponse (Places.cleanHtmlResponse s) = Places.cleanHtmlResponse s := by
  have hmf := matchAt_false_of_any_false _ _ hf rfl
  show (⟨jsTrimL (stripCitM (stripTrailingFence
    (stripLeadingFence (Places.cleanHtmlResponse s).data)))⟩ : String) = _
  rw [stripLeadingFence_id _ (by simpa using hmf 0), stripTrailingFence_id _ hmf,
    stripCitM_id_of_no_match _ hc]
  show (⟨jsTrimL (jsTrimL (stripCitM (stripTrailingFence (stripLeadingFence s.data))))⟩
    : String) = _
  rw [jsTrimL_idem]
  rfl

theorem C4_witness :
    Places.cleanHtmlResponse (Places.cleanHtmlResponse "ok [1] fine")
      = Places.cleanHtmlResponse "ok [1] fine" :=
  C4_idempotent_when_clean "ok [1] fine" (by decide) (by decide)

/-- C4 counterexample: on `[1[2]3]` one pass yields `[13]` and a second pass
yields the empty string, so stripMarkup is not idempotent. -/
theorem C4_counterexample :
    Places.cleanHtmlResponse (Places.cleanHtmlResponse "[1[2]3]")
      ≠ Places.cleanHtmlResponse "[1[2]3]" := by decide

/-- C5: the spec claims a round trip for every primitive-valued mapping
wrapped in noise.  Citation stripping can corrupt string values (see the
counterexample), so the claim holds only when the serialization contains no
`[` and no trailing-comma pattern; under those hypotheses the round trip is
proved here. -/
theorem C5_round_trip (m : List (String × Prim))
    (hbr : '[' ∉ serializeObj m) (htc : hasTC (serializeObj m) = false) :
    Places.cleanAndParseJSON ("noise " ++ (⟨serializeObj m⟩ : String) ++ " noise")
      = some (primObjToJson m) := by
  have hshape : ("noise " ++ (⟨serializeObj m⟩ : String) ++ " noise").data
      = "noise ".data ++ '{' :: (serializeMembers m ++ '}' :: " noise".data) := by
    rw [show ("noise " ++ (⟨serializeObj m⟩ : String) ++ " noise").data
      = ("noise ".data ++ serializeObj m) ++ " noise".data from rfl,
      show serializeObj m = '{' :: (serializeMembers m ++ ['}']) from rfl]
    simp
  have hnb : '[' ∉ "noise ".data ++ '{' :: (serializeMembers m ++ '}' :: " noise".data) := by
    intro hmem
    rcases List.mem_append.mp hmem with h | h
    · exact absurd h (by decide)
    · rcases List.mem_cons.mp h with h | h
      · exact absurd h (by decide)
      · rcases List.mem_append.mp h with h | h
        · exact hbr (by
            rw [show serializeObj m = '{' :: (serializeMembers m ++ ['}']) from rfl]
            exact List.mem_cons_of_mem _ (List.mem_append_left _ h))
        · rcases List.mem_cons.mp h with h | h
          · exact absurd h (by decide)
          · exact absurd h (by decide)
  have h1 : ∀ c, ("noise ".data ++ '{' :: (serializeMembers m ++ '}' :: " noise".data)).head?
      = some c → jsWs c = false := by
    intro c hc
    have hleft : ("noise ".data ++ '{' :: (serializeMembers m ++ '}' :: " noise".data)).head?
        = some 'n' := by
      rw [head?_append_left _ _ (by decide)]
      rfl
    have h' := hleft.symm.trans hc
    injection h' with h''
    subst h''
    decide
  have h2 : ∀ c, ("noise ".data ++ '{' :: (serializeMembers m ++ '}' :: " noise".data)).getLast?
      = some c → jsWs c = false := by
    intro c hc
    have hlast : ("noise ".data ++ '{' :: (serializeMembers m ++ '}' :: " noise".data)).getLast?
        = some 'e' := by
      rw [show "noise ".data ++ '{' :: (serializeMembers m ++ '}' :: " noise".data)
        = ("noise ".data ++ '{' :: (serializeMembers m ++ ['}'])) ++ " noise".data from by simp,
        getLast?_append_right _ _ (by decide)]
      rfl
    have h' := hlast.symm.trans hc
    injection h' with h''
    subst h''
    decide
  unfold Places.cleanAndParseJSON
  rw [hshape]
  rw [show ("noise ".data ++ '{' :: (serializeMembers m ++ '}' :: " noise".data)).isEmpty
    = false from by rw [show "noise ".data = 'n' :: "oise ".data from rfl]; rfl]
  rw [if_neg (show ¬(false = true) from by simp)]
  rw [stripCitM_id_of_no_match _ (hasCitM_false_of_no_bracket _ hnb),
    jsTrimL_eq_self _ h1 h2,
    jsonObjectMatch_wrap "noise ".data (serializeMembers m) " noise".data
      (by decide) (by decide)]
  dsimp only
  rw [show ('{' :: (serializeMembers m ++ ['}'])) = serializeObj m from rfl,
    fixTC_id_of_no_match _ htc, jsonParseL_serializeObj m]

theorem C5_witness :
    Places.cleanAndParseJSON ("noise "
        ++ (⟨serializeObj [("lat", Prim.num false 1234 2), ("ok", Prim.bool true)]⟩ : String)
        ++ " noise")
      = some (primObjToJson [("lat", Prim.num false 1234 2), ("ok", Prim.bool true)]) :=
  C5_round_trip _ (by decide) (by decide)

/-- C5 counterexample: a string value containing `[1]` is corrupted by the
citation strip, so the round trip fails for that mapping. -/
theorem C5_counterexample :
    Places.cleanAndParseJSON ("noise " ++ (⟨serializeObj [("a", Prim.str "[1]")]⟩ : String)
        ++ " noise")
      = some (Json.obj [("a", Json.str "")])
    ∧ primObjToJson [("a", Prim.str "[1]")] = Json.obj [("a", Json.str "[1]")]
    ∧ ("" : String) ≠ "[1]" :=
  ⟨rfl, rfl, by decide⟩

/-- C6: the spec says empty or absent input yields null (extraction) or an
empty string (normalization), never a crash.  The `places.js` extractor and
the normalizers satisfy this, proved here; the `map.js` extractor throws on
empty input (see the counterexample), refuting the claim as stated. -/
theorem C6_empty_input :
    Places.cleanAndParseJSON "" = none
    ∧ Places.cleanAndParseJSONOpt none = none
    ∧ Places.cleanAndParseJSONOpt (some "") = none
    ∧ Places.cleanHtmlResponse "" = ""
    ∧ MapRoute.cleanAIResponse "" = ""
    ∧ Planner.cleanGeminiResponse "" = "" :=
  ⟨rfl, rfl, rfl, rfl, rfl, rfl⟩

/-- C6 counterexample: on empty input the `map.js` extractJSON throws
(modelled as `Except.error`) rather than returning null. -/
theorem C6_counterexample :
    MapRoute.cleanAndParseJSON ""
      = Except.error "No JSON object found in AI response." := rfl

/-- C7: the spec says stripMarkup removes every fence delimiter wherever it
occurs.  Only the `map.js` pass does: an interior bare fence is removed, as
proved here; `places.js` and `planner.js` strip only anchored fences and
leave interior ones in place (see the counterexample). -/
theorem C7_fence_removal (a b : List Char) (ha : backtick ∉ a)
    (hb : jsonPrefixAt b = false) :
    stripFences (a ++ backtick :: backtick :: backtick :: b) = a ++ stripFences b :=
  stripFences_marker a b ha hb

theorem C7_witness :
    stripFences ("a ".data ++ backtick :: backtick :: backtick :: " b".data)
      = "a ".data ++ stripFences " b".data :=
  C7_fence_removal _ _ (by decide) (by decide)

/-- C7 counterexample: interior fences survive the `places.js` and
`planner.js` cleaners unchanged. -/
theorem C7_counterexample :
    Places.cleanHtmlResponse "a ``` b ``` c" = "a ``` b ``` c"
    ∧ Planner.cleanGeminiResponse "a ``` b ``` c" = "a ``` b ``` c"
    ∧ hasFence ("a ``` b ``` c".data) = true :=
  ⟨rfl, rfl, by decide⟩

/-- C8: the spec says that with no fence delimiter and no citation marker,
stripMarkup equals trim.  This holds for `map.js`, and for `places.js` under
the stronger code-level no-citation-match hypothesis, proved here; the
`places.js` citation class also fires on digit-free groups such as `[ ]`, so
the claim as stated fails there (see the counterexample). -/
theorem C8_trim_equiv (s : String) (hf : hasFence s.data = false)
    (hc : specCitationMarkerPresent s.data = false) :
    MapRoute.cleanAIResponse s = jsTrimStr s
    ∧ (hasCitM s.data = false → Places.cleanHtmlResponse s = jsTrimStr s) :=
  ⟨cleanAIResponse_eq_trim s hf hc, fun hm => cleanHtmlResponse_eq_trim s hf hm⟩

theorem C8_witness :
    MapRoute.cleanAIResponse " hello world " = jsTrimStr " hello world "
    ∧ Places.cleanHtmlResponse " hello world " = jsTrimStr " hello world " :=
  ⟨(C8_trim_equiv " hello world " (by decide) (by decide)).1,
   (C8_trim_equiv " hello world " (by decide) (by decide)).2 (by decide)⟩

/-- C8 counterexample: `[ ]` has no fence and no citation marker in the
spec's sense, yet `places.js` stripMarkup erases it instead of trimming. -/
theorem C8_counterexample :
    hasFence "[ ]".data = false
    ∧ specCitationMarkerPresent "[ ]".data = false
    ∧ Places.cleanHtmlResponse "[ ]" = ""
    ∧ jsTrimStr "[ ]" = "[ ]"
    ∧ ("" : String) ≠ "[ ]" :=
  ⟨by decide, by decide, rfl, rfl, by decide⟩

/-- C9: the null-returning extractJSON returns null or a JSON object, never
an array, string, number or boolean: the candidate starts with a brace, so a
successful strict parse is an object. -/
theorem C9_object_only (s : String) (j : Json)
    (h : Places.cleanAndParseJSON s = some j) : ∃ flds, j = Json.obj flds := by
  unfold Places.cleanAndParseJSON at h
  by_cases he : s.data.isEmpty = true
  · rw [if_pos he] at h
    exact absurd h (by simp)
  · rw [if_neg he] at h
    cases hm : jsonObjectMatch (jsTrimL (stripCitM s.data)) with
    | none =>
      rw [hm] at h
      exact absurd h (by simp)
    | some cand =>
      rw [hm] at h
      dsimp only at h
      cases hp : jsonParseL (fixTC cand) with
      | error e =>
        rw [hp] at h
        exact absurd h (by simp)
      | ok j1 =>
        rw [hp] at h
        dsimp only at h
        injection h with h1
        obtain ⟨t, ht⟩ := jsonObjectMatch_some_shape _ cand hm
        subst ht
        have hhead : (skipJsonWs (fixTC ('{' :: t))).head? = some '{' := by
          rw [fixTCGo_none_brace, skipJsonWs_cons _ (by decide)]
          rfl
        obtain ⟨flds, hf⟩ := jsonParseL_obj _ j1 hp hhead
        exact ⟨flds, by rw [← h1, hf]⟩

theorem C9_witness :
    ∃ flds, Json.obj [("a", Json.num ⟨false, 1, 0, 0⟩)] = Json.obj flds :=
  C9_object_only "\x7b\"a\":1\x7d" (Json.obj [("a", Json.num ⟨false, 1, 0, 0⟩)]) rfl

/-- C10: the implemented citation removal deletes every bracketed run of
digits, commas and whitespace, including digit-free groups such as `[,]` or
`[ ]` and groups inside JSON string values, so inputs with no citation
marker in the spec's sense are still changed. -/
theorem C10_overbroad_strip :
    Places.cleanHtmlResponse "a[,]b" = "ab"
    ∧ specCitationMarkerPresent "a[,]b".data = false
    ∧ Places.cleanHtmlResponse "see[ ]it" = "seeit"
    ∧ specCitationMarkerPresent "see[ ]it".data = false
    ∧ Places.cleanAndParseJSON "\x7b\"a\":\"x[1]y\"\x7d"
        = some (Json.obj [("a", Json.str "xy")]) :=
  ⟨rfl, by decide, rfl, by decide, rfl⟩
